import Mathlib

/-!
# DAG extractor (`src/extract.cpp`): a shallow embedding and its verified properties

The IR that the pass reads is modelled as a finite table of values indexed by `Fin n`
(the index plays the role of the `Value *` identity).  The traversal of
`dumpBasicBlock(raw_ostream &, BasicBlock &)`, the builder
`dumpBasicBlock(raw_ostream &, ArrayRef<Value *>, ArrayRef<Instruction *>)` and the entry point
`runOnFunction` with its `LockFile` are translated line by line; the printer of the module and
`yaml::escape` are library services taken as parameters, and the answers of the operating
system to `open`, `flock` and the opening of the output stream are inputs of the sink.  Where
the content of the escaped text matters, `yamlEscape` gives what `llvm::yaml::escape` writes.
-/

set_option autoImplicit false

namespace DagExtractor

/-! ## The IR object model read by the pass -/

/-- Instruction opcodes, grouped by the instruction class that `isa<...>` tests. -/
inductive Opcode
  | add | fadd | sub | fsub | mul | fmul | udiv | sdiv | fdiv | urem | srem | frem
  | shl | lshr | ashr | and | or | xor
  | fneg
  | select
  | trunc | zext | sext | fptoui | fptosi | uitofp | sitofp | fptrunc | fpext
  | ptrtoint | inttoptr | bitcast | addrspacecast
  | icmp | fcmp
  | ret | br | switch | unreachable | alloca | load | store | getelementptr | phi | call
  | extractelement | insertelement | shufflevector | extractvalue | insertvalue | freeze
  deriving DecidableEq, Repr

/-- Class test `isa<BinaryOperator>`. -/
def Opcode.isBinaryOperator : Opcode → Bool
  | .add | .fadd | .sub | .fsub | .mul | .fmul | .udiv | .sdiv | .fdiv | .urem | .srem
  | .frem | .shl | .lshr | .ashr | .and | .or | .xor => true
  | _ => false

/-- Class test `isa<UnaryOperator>`. -/
def Opcode.isUnaryOperator : Opcode → Bool
  | .fneg => true
  | _ => false

/-- Class test `isa<SelectInst>`. -/
def Opcode.isSelectInst : Opcode → Bool
  | .select => true
  | _ => false

/-- Class test `isa<CastInst>`. -/
def Opcode.isCastInst : Opcode → Bool
  | .trunc | .zext | .sext | .fptoui | .fptosi | .uitofp | .sitofp | .fptrunc | .fpext
  | .ptrtoint | .inttoptr | .bitcast | .addrspacecast => true
  | _ => false

/-- Class test `isa<CmpInst>`. -/
def Opcode.isCmpInst : Opcode → Bool
  | .icmp | .fcmp => true
  | _ => false

/-- The predicate `isSupported` of `extract.cpp` (lines 61-65), on the opcode of the instruction. -/
def isSupported (op : Opcode) : Bool :=
  op.isBinaryOperator || op.isUnaryOperator || op.isSelectInst || op.isCastInst || op.isCmpInst

/-- Value types; only `void` is inspected by the pass (`isVoidTy`), the others are carried along. -/
inductive Ty
  | void
  | integer (bits : Nat)
  | float
  | double
  | pointer
  | label
  | vector (len : Nat) (bits : Nat)
  deriving DecidableEq, Repr

/-- Type test `Type::isVoidTy`. -/
def Ty.isVoidTy : Ty → Bool
  | .void => true
  | _ => false

/-- Basic blocks are identified by a number. -/
abbrev BlockId := Nat

/-- What a value is: a `Constant`, an `Instruction` (with its opcode, its parent block and its
operand list), or any other value (function argument, basic block label, ...). -/
inductive ValueKind (n : Nat)
  | constant
  | argument
  | instruction (op : Opcode) (parent : BlockId) (operands : List (Fin n))
  deriving DecidableEq, Repr

/-- A value: its type and what it is. -/
structure ValueInfo (n : Nat) where
  ty : Ty
  kind : ValueKind n
  deriving DecidableEq, Repr

/-- Operand list of a value kind (`I->operands()`); empty for what is not an instruction. -/
def ValueKind.operands {n : Nat} : ValueKind n → List (Fin n)
  | .instruction _ _ ops => ops
  | _ => []

/-- The IR of one function and of the values it refers to: `n` values, value `v` described by
`info v`.  The instructions of a block are the values whose parent is that block, and the table
is numbered so that they occur in it in the order of the block.  As in every LLVM function, an
operand of an instruction is a first-class value, so it is never of type `void`. -/
structure FunctionIR (n : Nat) where
  info : Fin n → ValueInfo n
  operands_first_class : ∀ v : Fin n, ∀ o ∈ (info v).kind.operands, (info o).ty.isVoidTy = false

variable {n : Nat}

/-- Test `isa<Constant>(V)`. -/
def FunctionIR.isConstant (F : FunctionIR n) (v : Fin n) : Bool :=
  match (F.info v).kind with
  | .constant => true
  | _ => false

/-- Test `V->getType()->isVoidTy()`. -/
def FunctionIR.isVoid (F : FunctionIR n) (v : Fin n) : Bool :=
  (F.info v).ty.isVoidTy

/-- Operand list `I->operands()` of value `v` (empty when `v` is not an instruction). -/
def FunctionIR.operands (F : FunctionIR n) (v : Fin n) : List (Fin n) :=
  (F.info v).kind.operands

/-- Whether `v` is an instruction whose parent is block `BB`. -/
def FunctionIR.inBlock (F : FunctionIR n) (BB : BlockId) (v : Fin n) : Bool :=
  match (F.info v).kind with
  | .instruction _ parent _ => parent == BB
  | _ => false

/-- The instructions of block `BB`, in block order (`for (auto &I : BB)`). -/
def FunctionIR.blockInsts (F : FunctionIR n) (BB : BlockId) : List (Fin n) :=
  (List.finRange n).filter (fun v => F.inBlock BB v)

/-- Whether `v` is an instruction whose opcode is supported. -/
def FunctionIR.supported (F : FunctionIR n) (v : Fin n) : Bool :=
  match (F.info v).kind with
  | .instruction op _ _ => isSupported op
  | _ => false

/-- The negation of the test of line 134 of `Visit`: `V` is an instruction, it is supported, and
it belongs to `BB` unless live-in instructions are included.  Such a value joins the DAG; any
other non-constant value is a boundary value. -/
def FunctionIR.internal (F : FunctionIR n) (includeLiveIns : Bool) (BB : BlockId) (v : Fin n) :
    Bool :=
  match (F.info v).kind with
  | .instruction op parent _ => !(!isSupported op || (!includeLiveIns && parent != BB))
  | _ => false

/-! ## The traversal: `dumpBasicBlock(raw_ostream &, BasicBlock &)`, lines 120-154 -/

/-- The three containers the lambda `Visit` captures by reference. -/
structure VState (n : Nat) where
  Instructions : List (Fin n)
  LiveIns : List (Fin n)
  Visited : List (Fin n)
  deriving DecidableEq, Repr

/-- The state before the first call of `Visit`. -/
def VState.init : VState n := ⟨[], [], []⟩

/-- Line 129: `V` enters the visited set. -/
def VState.mark (s : VState n) (V : Fin n) : VState n :=
  { s with Visited := V :: s.Visited }

/-- Line 143: `Instructions.push_back(I)`. -/
def VState.push (s : VState n) (V : Fin n) : VState n :=
  { s with Instructions := s.Instructions ++ [V] }

/-- Lines 135-136: a boundary value joins `LiveIns` unless its type is `void`. -/
def VState.boundary (F : FunctionIR n) (s : VState n) (V : Fin n) : VState n :=
  if F.isVoid V then s else { s with LiveIns := s.LiveIns ++ [V] }

/-- The lambda `Visit` (lines 125-144).  The recursion of the C++ code is bounded here by a
nesting budget `fuel`: `none` means that the budget ran out. -/
def Visit (F : FunctionIR n) (includeLiveIns : Bool) (BB : BlockId) :
    Nat → Fin n → VState n → Option (VState n)
  | 0, _, _ => none
  | fuel + 1, V, s =>
    if F.isConstant V then some s
    else if V ∈ s.Visited then some s
    else
      let s1 : VState n := { s with Visited := V :: s.Visited }
      match (F.info V).kind with
      | .instruction op parent ops =>
        if !isSupported op || (!includeLiveIns && parent != BB) then
          if !(F.info V).ty.isVoidTy then some { s1 with LiveIns := s1.LiveIns ++ [V] }
          else some s1
        else
          (ops.foldlM (fun st o => Visit F includeLiveIns BB fuel o st) s1).map
            (fun s2 => { s2 with Instructions := s2.Instructions ++ [V] })
      | _ =>
        if !(F.info V).ty.isVoidTy then some { s1 with LiveIns := s1.LiveIns ++ [V] }
        else some s1

/-- The loop `for (auto &I : BB) Visit(&I)` of lines 146-147, giving the lists `Instructions`
and `LiveIns` the builder is then called with.  A nesting budget of `n + 1` is always enough
(`traverse_total`). -/
def traverse (F : FunctionIR n) (includeLiveIns : Bool) (BB : BlockId) : Option (VState n) :=
  (F.blockInsts BB).foldlM (fun st I => Visit F includeLiveIns BB (n + 1) I st) VState.init

/-! ## The builder: `dumpBasicBlock(raw_ostream &, ArrayRef<Value *>, ArrayRef<Instruction *>)`,
lines 67-118 -/

/-- A value as an operand inside the synthetic module. -/
inductive SynValue (n : Nat)
  /-- The parameter `Wrapper->getArg(i)`. -/
  | arg (i : Nat)
  /-- The `k`-th instruction of the entry block, that is the `k`-th clone. -/
  | inst (k : Nat)
  /-- A value of the original function, which the remap left in place. -/
  | orig (v : Fin n)
  deriving DecidableEq, Repr

/-- A cloned instruction: opcode and type of the original (`I->clone()`; the opcode is `none`
when the original is not an instruction, which `ArrayRef<Instruction *>` excludes), and the
remapped operands. -/
structure ClonedInst (n : Nat) where
  op : Option Opcode
  ty : Ty
  operands : List (SynValue n)
  deriving DecidableEq, Repr

/-- A call instruction of the sink block; an argument read from an absent entry of `VMap` is
`none` (a null pointer). -/
structure CallInst (n : Nat) where
  callee : String
  args : List (Option (SynValue n))
  deriving DecidableEq, Repr

/-- A function of the synthetic module: name, return type, parameter types. -/
structure FuncDecl where
  name : String
  retTy : Ty
  paramTys : List Ty
  deriving DecidableEq, Repr

/-- The module `M` when the builder prints it: its functions in order of insertion, and the
two blocks of `wrapper` (the entry block ends with the branch to the sink block, the sink block
with `ret void`; both terminators are left implicit). -/
structure SynModule (n : Nat) where
  functions : List FuncDecl
  EntryBB : List (ClonedInst n)
  SinkBB : List (CallInst n)
  deriving DecidableEq, Repr

/-- The map `VMap` from original values to values of the synthetic function. -/
abbrev ValueMap (n : Nat) := Fin n → Option (SynValue n)

/-- Assignment `VMap[v] = x`. -/
def ValueMap.set (m : ValueMap n) (v : Fin n) (x : SynValue n) : ValueMap n :=
  fun w => if w = v then some x else m w

/-- Module service `getOrInsertFunction`: the function of that name is added unless the module
already has one. -/
def getOrInsertFunction (fns : List FuncDecl) (name : String) (retTy : Ty)
    (paramTys : List Ty) : List FuncDecl :=
  if fns.any (fun f => f.name == name) then fns else fns ++ [⟨name, retTy, paramTys⟩]

/-- Opcode of `v` when `v` is an instruction. -/
def FunctionIR.opcode (F : FunctionIR n) (v : Fin n) : Option Opcode :=
  match (F.info v).kind with
  | .instruction op _ _ => some op
  | _ => none

/-- Test `dyn_cast<Instruction>(V)` succeeds. -/
def FunctionIR.isInstruction (F : FunctionIR n) (v : Fin n) : Bool :=
  match (F.info v).kind with
  | .instruction _ _ _ => true
  | _ => false

/-- Lines 72-74: the parameter types of `wrapper`. -/
def paramTypes (F : FunctionIR n) (LiveIns : List (Fin n)) : List Ty :=
  LiveIns.map (fun V => (F.info V).ty)

/-- Lines 82-83: `VMap[LiveIns[i]] = Wrapper->getArg(i)` for `i` from the given index on.  The
index is an `unsigned` in the source; it is not bounded here, a list of `2^32` values being out
of reach. -/
def mapArgs : Nat → List (Fin n) → ValueMap n → ValueMap n
  | _, [], m => m
  | i, V :: rest, m => mapArgs (i + 1) rest (m.set V (.arg i))

/-- The map `VMap` after the loop of lines 82-83. -/
def argMap (LiveIns : List (Fin n)) : ValueMap n :=
  mapArgs 0 LiveIns (fun _ => none)

/-- What `RemapInstruction` with `RF_NoModuleLevelChanges | RF_IgnoreMissingLocals` does to one
operand: it becomes its image under `VMap` if it has one and is left in place otherwise (a
constant has no entry and maps to itself). -/
def remapOperand (m : ValueMap n) (o : Fin n) : SynValue n :=
  (m o).getD (.orig o)

/-- What the loop of lines 89-101 updates. -/
structure CloneState (n : Nat) where
  VMap : ValueMap n
  EntryBB : List (ClonedInst n)
  Alive : List (Fin n)

/-- One iteration of the loop of lines 89-101: clone `I`, record the clone in `VMap`, append it
to the entry block, remap its operands through `VMap` as it is at that moment, and mark the
operands of `I` that are instructions as alive. -/
def cloneStep (F : FunctionIR n) (st : CloneState n) (I : Fin n) : CloneState n :=
  let VMap := st.VMap.set I (.inst st.EntryBB.length)
  { VMap := VMap
    EntryBB := st.EntryBB ++
      [⟨F.opcode I, (F.info I).ty, (F.operands I).map (remapOperand VMap)⟩]
    Alive := st.Alive ++ (F.operands I).filter (fun o => F.isInstruction o) }

/-- The loop of lines 89-101, after lines 82-83. -/
def cloneLoop (F : FunctionIR n) (LiveIns Instructions : List (Fin n)) : CloneState n :=
  Instructions.foldl (cloneStep F) ⟨argMap LiveIns, [], []⟩

/-- What the loop of lines 105-111 updates: the counter `i`, the functions of the module and
the sink block. -/
structure UseState (n : Nat) where
  i : Nat
  functions : List FuncDecl
  SinkBB : List (CallInst n)

/-- Name `Twine("use-").concat(Twine(i)).str()`. -/
def useName (i : Nat) : String :=
  "use-" ++ toString i

/-- One iteration of the loop of lines 106-111.  The counter is an `int` in the source; it is
not bounded here, a list of `2^31` instructions being out of reach. -/
def useStep (F : FunctionIR n) (VMap : ValueMap n) (Alive : List (Fin n)) (st : UseState n)
    (I : Fin n) : UseState n :=
  if I ∈ Alive then st
  else
    { i := st.i + 1
      functions := getOrInsertFunction st.functions (useName st.i) Ty.void [(F.info I).ty]
      SinkBB := st.SinkBB ++ [⟨useName st.i, [VMap I]⟩] }

/-- The loop of lines 105-111, started with the module that holds `wrapper` alone. -/
def useLoop (F : FunctionIR n) (LiveIns Instructions : List (Fin n)) : UseState n :=
  let cl := cloneLoop F LiveIns Instructions
  Instructions.foldl (useStep F cl.VMap cl.Alive)
    ⟨0, getOrInsertFunction [] "wrapper" Ty.void (paramTypes F LiveIns), []⟩

/-- The module `M` as it is at line 113. -/
def buildModule (F : FunctionIR n) (LiveIns Instructions : List (Fin n)) : SynModule n :=
  let us := useLoop F LiveIns Instructions
  { functions := us.functions
    EntryBB := (cloneLoop F LiveIns Instructions).EntryBB
    SinkBB := us.SinkBB }

/-- The builder `dumpBasicBlock(OS, LiveIns, Instructions)`: what the stream holds afterwards.
`render` is the printer of a module (`SS << M`) and `escape` is `yaml::escape`. -/
def dumpBasicBlockDAG (render : SynModule n → String) (escape : String → String)
    (F : FunctionIR n) (OS : String) (LiveIns Instructions : List (Fin n)) : String :=
  OS ++ toString Instructions.length ++ "," ++
    escape (render (buildModule F LiveIns Instructions))

/-- The function `dumpBasicBlock(OS, BB)` (lines 120-154): what the stream holds afterwards. -/
def dumpBasicBlock (render : SynModule n → String) (escape : String → String)
    (F : FunctionIR n) (includeLiveIns : Bool) (OS : String) (BB : BlockId) : Option String :=
  (traverse F includeLiveIns BB).map (fun u =>
    if u.Instructions.isEmpty then OS
    else dumpBasicBlockDAG render escape F OS u.LiveIns u.Instructions ++ "\n")

/-! ## Notions used to state the properties -/

/-- `InternalEdge a b`: the instruction `a` joins the DAG and `b` is one of its operands. -/
def InternalEdge (F : FunctionIR n) (includeLiveIns : Bool) (BB : BlockId) (a b : Fin n) :
    Prop :=
  F.internal includeLiveIns BB a = true ∧ b ∈ F.operands a

/-- No instruction that can join the DAG is reachable from itself through operand edges of
such instructions. -/
def Acyclic (F : FunctionIR n) (includeLiveIns : Bool) (BB : BlockId) : Prop :=
  ∀ v : Fin n, ¬ Relation.TransGen (InternalEdge F includeLiveIns BB) v v

/-- The order property of `orderedInternal`: every operand of a member is a constant, a member
of `liveIns`, or occurs strictly earlier in `orderedInternal`. -/
def TopologicallyOrdered (F : FunctionIR n) (u : VState n) : Prop :=
  ∀ (pre : List (Fin n)) (I : Fin n) (post : List (Fin n)),
    u.Instructions = pre ++ I :: post →
    ∀ o ∈ F.operands I, F.isConstant o = true ∨ o ∈ u.LiveIns ∨ o ∈ pre

/-- The internal operands of a member of `Instructions` occur before it. -/
def InternalOperandsEarlier (F : FunctionIR n) (inc : Bool) (BB : BlockId) (s : VState n) :
    Prop :=
  ∀ (pre : List (Fin n)) (I : Fin n) (post : List (Fin n)),
    s.Instructions = pre ++ I :: post →
    ∀ o ∈ F.operands I, F.internal inc BB o = true → o ∈ pre

/-- The calls `use-k(VMap[I_k])`, `k = 0, 1, ...`, for the values `I_0, I_1, ...` of a list. -/
def preservationCalls (VMap : ValueMap n) (dead : List (Fin n)) : List (CallInst n) :=
  dead.enum.map (fun p => ⟨useName p.1, [VMap p.2]⟩)

/-- Whether `I` is an operand of no member of the list other than `I` itself. -/
def notOperandOfOther (F : FunctionIR n) (Instructions : List (Fin n)) (I : Fin n) : Bool :=
  !(Instructions.any (fun J => J != I && decide (I ∈ F.operands J)))

/-- Whether `I` is an operand of no member of the list, `I` itself included. -/
def notOperandOfAny (F : FunctionIR n) (Instructions : List (Fin n)) (I : Fin n) : Bool :=
  !(Instructions.any (fun J => decide (I ∈ F.operands J)))

/-- The number a list of decimal digits stands for, continuing from `acc`. -/
def digitsValue (acc : Nat) (cs : List Char) : Nat :=
  cs.foldl (fun a c => 10 * a + (c.toNat - 48)) acc

/-- An instruction that is its own operand, as unreachable code may hold one:
`%0 = add i32 %0, 1` in block 0 (value 1 is the constant `1`). -/
def selfLoopIR : FunctionIR 2 where
  info := ![⟨.integer 32, .instruction .add 0 [0, 1]⟩, ⟨.integer 32, .constant⟩]
  operands_first_class := by decide

/-- The map of the claim on operands: a constant goes to itself, `liveIns[i]` to parameter `i`,
`orderedInternal[m]` to clone `m`. -/
def OperandImage (F : FunctionIR n) (LiveIns Instructions : List (Fin n)) (o : Fin n)
    (x : SynValue n) : Prop :=
  (F.isConstant o = true ∧ x = .orig o) ∨
    (∃ i, LiveIns[i]? = some o ∧ x = .arg i) ∨
    (∃ m, Instructions[m]? = some o ∧ x = .inst m)

/-- Structural faithfulness and closure of the synthetic function built from the lists
`LiveIns` and `Instructions`: one clone per member, in order, with the opcode of the member and
with the images of its operands as operands; and the argument of every call of the sink block
is a clone of the entry block. -/
def FaithfulAndClosed (F : FunctionIR n) (LiveIns Instructions : List (Fin n)) : Prop :=
  (buildModule F LiveIns Instructions).EntryBB.length = Instructions.length ∧
  (∀ (k : Nat) (I : Fin n), Instructions[k]? = some I →
    ∃ c, (buildModule F LiveIns Instructions).EntryBB[k]? = some c ∧ c.op = F.opcode I ∧
      List.Forall₂ (OperandImage F LiveIns Instructions) (F.operands I) c.operands) ∧
  (∀ c ∈ (buildModule F LiveIns Instructions).SinkBB, ∀ a ∈ c.args,
    ∃ m, m < Instructions.length ∧ a = some (.inst m))

/-- The chain of the claim: `I0` is an instruction of the block, every value of `I0 :: rest` is
an operand of the one before it, the last one is `I`, and every one is supported and belongs to
the block unless live-in instructions are included. -/
def IsExtractionChain (F : FunctionIR n) (includeLiveIns : Bool) (BB : BlockId) (I0 : Fin n)
    (rest : List (Fin n)) (I : Fin n) : Prop :=
  I0 ∈ F.blockInsts BB ∧
  List.Chain (fun a b => b ∈ F.operands a) I0 rest ∧
  (I0 :: rest).getLast (List.cons_ne_nil _ _) = I ∧
  ∀ v ∈ I0 :: rest, F.supported v = true ∧ (includeLiveIns = true ∨ F.inBlock BB v = true)

/-- No extracted instruction, that is no instruction at the end of a chain of the DAG that
starts in the block, is reachable from itself through operand edges of the DAG. -/
def AcyclicRegion (F : FunctionIR n) (includeLiveIns : Bool) (BB : BlockId) : Prop :=
  ∀ v : Fin n, (∃ I0 rest, IsExtractionChain F includeLiveIns BB I0 rest v) →
    ¬ Relation.TransGen (InternalEdge F includeLiveIns BB) v v

/-- `ProperEdge a b`: an operand edge of the DAG between two different values. -/
def ProperEdge (F : FunctionIR n) (includeLiveIns : Bool) (BB : BlockId) (a b : Fin n) :
    Prop :=
  InternalEdge F includeLiveIns BB a b ∧ a ≠ b

/-- No extracted instruction lies on an operand cycle of two or more instructions; an
instruction that is its own operand is allowed. -/
def NoProperCycle (F : FunctionIR n) (includeLiveIns : Bool) (BB : BlockId) : Prop :=
  ∀ v : Fin n, (∃ I0 rest, IsExtractionChain F includeLiveIns BB I0 rest v) →
    ¬ Relation.TransGen (ProperEdge F includeLiveIns BB) v v

/-- Every operand of a member of `orderedInternal` is a constant, a member of `liveIns`, an
earlier member of `orderedInternal`, or the member itself. -/
def OperandsNotLater (F : FunctionIR n) (u : VState n) : Prop :=
  ∀ (pre : List (Fin n)) (I : Fin n) (post : List (Fin n)),
    u.Instructions = pre ++ I :: post →
    ∀ o ∈ F.operands I, F.isConstant o = true ∨ o ∈ u.LiveIns ∨ o ∈ pre ∨ o = I

/-- The internal operands of a member of `Instructions` occur before it or are the member. -/
def InternalOperandsNotLater (F : FunctionIR n) (inc : Bool) (BB : BlockId) (s : VState n) :
    Prop :=
  ∀ (pre : List (Fin n)) (I : Fin n) (post : List (Fin n)),
    s.Instructions = pre ++ I :: post →
    ∀ o ∈ F.operands I, F.internal inc BB o = true → o ∈ pre ∨ o = I

/-- A block with an unsupported instruction of non-void type: the pointer argument `%p` (0), the
constant `1` (1), and block 0 made of `%v = load i32, ptr %p` (2) and `%a = add i32 1, 1` (3). -/
def loadIR : FunctionIR 4 where
  info := ![⟨.pointer, .argument⟩, ⟨.integer 32, .constant⟩,
            ⟨.integer 32, .instruction .load 0 [0]⟩,
            ⟨.integer 32, .instruction .add 0 [1, 1]⟩]
  operands_first_class := by decide

/-- The scenario block with `%x` defined by a supported instruction of another block: arguments
`%p` (0) and `%y` (1), the constant `1` (2), `%x = add %p, %p` (3) in block 1, and block 0 made
of `%a = add %x, %y` (4), `%b = mul %a, %a` (5), `%c = sub %b, 1` (6). -/
def crossIR : FunctionIR 7 where
  info := ![⟨.integer 32, .argument⟩, ⟨.integer 32, .argument⟩, ⟨.integer 32, .constant⟩,
            ⟨.integer 32, .instruction .add 1 [0, 0]⟩,
            ⟨.integer 32, .instruction .add 0 [3, 1]⟩,
            ⟨.integer 32, .instruction .mul 0 [4, 4]⟩,
            ⟨.integer 32, .instruction .sub 0 [5, 2]⟩]
  operands_first_class := by decide

/-- A two-instruction cycle, as unreachable code may hold one:
`%0 = add i32 %1, 1` and `%1 = add i32 %0, 1` in block 0 (value 2 is the constant `1`). -/
def cycleIR : FunctionIR 3 where
  info := ![⟨.integer 32, .instruction .add 0 [1, 2]⟩,
            ⟨.integer 32, .instruction .add 0 [0, 2]⟩,
            ⟨.integer 32, .constant⟩]
  operands_first_class := by decide

/-- The block of the scenario of the specification: arguments `%x` (0) and `%y` (1), the
constant `1` (2), and block 0 made of `%a = add %x, %y` (3), `%b = mul %a, %a` (4),
`%c = sub %b, 1` (5). -/
def scenarioIR : FunctionIR 6 where
  info := ![⟨.integer 32, .argument⟩, ⟨.integer 32, .argument⟩, ⟨.integer 32, .constant⟩,
            ⟨.integer 32, .instruction .add 0 [0, 1]⟩,
            ⟨.integer 32, .instruction .mul 0 [3, 3]⟩,
            ⟨.integer 32, .instruction .sub 0 [4, 2]⟩]
  operands_first_class := by decide

/-- The body of `dumpBasicBlock(raw_ostream &, BasicBlock &)` as a relation between the state
before and after visiting the values of a list one after the other: the first value is skipped
(constant or already visited), or classified as a boundary value, or its operands are visited
and it is appended to `Instructions`; then the rest of the list is visited.  `Visit` computes
this relation (`run_of_foldlM`, `traverse_run`, `traverse_eq_of_run`). -/
inductive Run (F : FunctionIR n) (includeLiveIns : Bool) (BB : BlockId) :
    List (Fin n) → VState n → VState n → Prop
  | nil (s : VState n) : Run F includeLiveIns BB [] s s
  | skip {V : Fin n} {os : List (Fin n)} {s s' : VState n} :
      (F.isConstant V = true ∨ V ∈ s.Visited) →
      Run F includeLiveIns BB os s s' → Run F includeLiveIns BB (V :: os) s s'
  | boundary {V : Fin n} {os : List (Fin n)} {s s' : VState n} :
      F.isConstant V = false → V ∉ s.Visited → F.internal includeLiveIns BB V = false →
      Run F includeLiveIns BB os ((s.mark V).boundary F V) s' →
      Run F includeLiveIns BB (V :: os) s s'
  | internal {V : Fin n} {os : List (Fin n)} {s s1 s' : VState n} :
      F.isConstant V = false → V ∉ s.Visited → F.internal includeLiveIns BB V = true →
      Run F includeLiveIns BB (F.operands V) (s.mark V) s1 →
      Run F includeLiveIns BB os (s1.push V) s' →
      Run F includeLiveIns BB (V :: os) s s'

/-- The number of values that could still join the DAG: the nesting of `Visit` never exceeds
it by more than one. -/
def unvisited (F : FunctionIR n) (includeLiveIns : Bool) (BB : BlockId) (s : VState n) : Nat :=
  (Finset.univ.filter
    (fun v : Fin n => F.internal includeLiveIns BB v = true ∧ v ∉ s.Visited)).card

/-- What holds of the three containers at every point of the traversal. -/
structure Inv (F : FunctionIR n) (includeLiveIns : Bool) (BB : BlockId) (s : VState n) :
    Prop where
  liveIns_visited : ∀ v ∈ s.LiveIns, v ∈ s.Visited
  liveIns_boundary : ∀ v ∈ s.LiveIns,
    F.isVoid v = false ∧ F.internal includeLiveIns BB v = false
  liveIns_nodup : s.LiveIns.Nodup
  insts_visited : ∀ v ∈ s.Instructions, v ∈ s.Visited
  insts_internal : ∀ v ∈ s.Instructions, F.internal includeLiveIns BB v = true
  insts_nodup : s.Instructions.Nodup
  visited_nonconst : ∀ v ∈ s.Visited, F.isConstant v = false
  boundary_classified : ∀ v ∈ s.Visited, F.internal includeLiveIns BB v = false →
    F.isVoid v = true ∨ v ∈ s.LiveIns
  operands_visited : ∀ I ∈ s.Instructions, ∀ o ∈ F.operands I,
    F.isConstant o = true ∨ o ∈ s.Visited

/-! ## The pass entry point: `runOnFunction`, lines 162-184, and `LockFile`, lines 33-59 -/

/-- Lines 163-167: the buffer `SS` after `dumpBasicBlock(SS, BB)` has been called for every
block; `blocks` is the list of the blocks of the function in iteration order
(`for (auto &BB : F)`). -/
def functionBuffer (render : SynModule n → String) (escape : String → String)
    (F : FunctionIR n) (includeLiveIns : Bool) (blocks : List BlockId) : Option String :=
  blocks.foldlM (fun OS BB => dumpBasicBlock render escape F includeLiveIns OS BB) ""

/-- How the operating system answers the three calls of the sink that can fail. -/
structure SysOutcomes where
  /-- Whether `open(FName, O_WRONLY | O_CREAT | O_TRUNC, 0644)` returns a descriptor. -/
  lockFileOpens : Bool
  /-- Whether `flock(FD, LOCK_EX)` returns 0. -/
  flockSucceeds : Bool
  /-- Whether `raw_fd_ostream OS(OutputFile, EC, OF_Append)` leaves `EC` clear. -/
  outputOpens : Bool

/-- The files (a path has contents or does not exist) and whether this invocation holds the
exclusive lock. -/
structure FileSystem where
  contents : String → Option String
  flockHeld : Bool

/-- Modelled from the spec: the effect of the system call `open` with `O_CREAT | O_TRUNC` when it
succeeds (section 4.6: the lock file is created if absent; its contents are never read): the
file exists and is empty. -/
def FileSystem.openTrunc (fs : FileSystem) (path : String) : FileSystem :=
  { fs with contents := fun p => if p = path then some "" else fs.contents p }

/-- Modelled from the spec: the effect of the library stream `raw_fd_ostream` opened with
`OF_Append` and written to (section 4.6: open in append mode, create if absent, write the full
buffer as one contiguous write): the file is created when absent, never truncated, and `data`
follows what it held. -/
def FileSystem.append (fs : FileSystem) (path data : String) : FileSystem :=
  { fs with
    contents := fun p => if p = path then some ((fs.contents p).getD "" ++ data)
      else fs.contents p }

/-- An object of class `LockFile`: whether `FD != -1`. -/
structure LockFile where
  hasFD : Bool

/-- The constructor `LockFile::LockFile` (lines 37-51): `none` when it calls `abort()`, and
otherwise the object, the flag `Ok` and the file system. -/
def LockFile.create (sys : SysOutcomes) (FName : String) (fs : FileSystem) :
    Option (LockFile × Bool × FileSystem) :=
  if sys.lockFileOpens then
    let fs1 := fs.openTrunc FName
    if sys.flockSucceeds then some (⟨true⟩, true, { fs1 with flockHeld := true })
    else some (⟨false⟩, false, fs1)
  else none

/-- The destructor `LockFile::~LockFile` (lines 53-58). -/
def LockFile.destroy (LF : LockFile) (fs : FileSystem) : FileSystem :=
  if LF.hasFD then { fs with flockHeld := false } else fs

/-- How an invocation of the pass ends: the process is aborted, or the call returns a value
to the pass manager. -/
inductive Outcome
  | aborted (fs : FileSystem)
  | returned (result : Bool) (fs : FileSystem)

/-- Lines 168-183 of `runOnFunction`: the buffer is appended to the output file under the
lock.  The stream `OS` is destroyed, hence written, before the lock `LF` is. -/
def flushBuffer (sys : SysOutcomes) (OutputFile Buffer : String) (fs : FileSystem) : Outcome :=
  if OutputFile ≠ "" then
    match LockFile.create sys (OutputFile ++ ".lock") fs with
    | none => Outcome.aborted fs
    | some (LF, Ok, fs1) =>
      if !Ok then Outcome.returned false (LF.destroy fs1)
      else if !sys.outputOpens then Outcome.returned false (LF.destroy fs1)
      else Outcome.returned false (LF.destroy (fs1.append OutputFile Buffer))
  else Outcome.returned false fs

/-- The method `runOnFunction` (lines 162-184). -/
def runOnFunction (render : SynModule n → String) (escape : String → String)
    (F : FunctionIR n) (includeLiveIns : Bool) (blocks : List BlockId) (sys : SysOutcomes)
    (OutputFile : String) (fs : FileSystem) : Option Outcome :=
  (functionBuffer render escape F includeLiveIns blocks).map
    (fun Buffer => flushBuffer sys OutputFile Buffer fs)

/-- The lambda `Visit` with a counter of the calls that pass both early returns of lines
126-131, that is of the calls that do not return at once. -/
def VisitCount (F : FunctionIR n) (includeLiveIns : Bool) (BB : BlockId) :
    Nat → Fin n → VState n × Nat → Option (VState n × Nat)
  | 0, _, _ => none
  | fuel + 1, V, (s, k) =>
    if F.isConstant V then some (s, k)
    else if V ∈ s.Visited then some (s, k)
    else if F.internal includeLiveIns BB V then
      ((F.operands V).foldlM (fun st o => VisitCount F includeLiveIns BB fuel o st)
        (s.mark V, k + 1)).map (fun r => (r.1.push V, r.2))
    else some ((s.mark V).boundary F V, k + 1)

/-- The number of non-constant values that are not yet in `Visited`. -/
def notVisited (F : FunctionIR n) (s : VState n) : Nat :=
  (Finset.univ.filter (fun v : Fin n => F.isConstant v = false ∧ v ∉ s.Visited)).card

/-- The number of distinct non-constant values. -/
def nonConstantCount (F : FunctionIR n) : Nat :=
  (Finset.univ.filter (fun v : Fin n => F.isConstant v = false)).card

/-- Definitions precede uses in block `BB`: an operand of an instruction of the block that is
itself an instruction of the block occurs earlier in the block. -/
def DefsPrecedeUses (F : FunctionIR n) (BB : BlockId) : Prop :=
  ∀ I ∈ F.blockInsts BB, ∀ o ∈ F.operands I, F.inBlock BB o = true →
    (F.blockInsts BB).indexOf o < (F.blockInsts BB).indexOf I

/-- The operand graph has no value reachable from itself. -/
def OperandAcyclic (F : FunctionIR n) : Prop :=
  ∀ v : Fin n, ¬ Relation.TransGen (fun a b => b ∈ F.operands a) v v

/-- Uppercase hexadecimal digit of a number below 16. -/
def hexDigit (k : Nat) : Char :=
  if k < 10 then Char.ofNat (48 + k) else Char.ofNat (55 + k)

/-- The `width` low hexadecimal digits of `v`, most significant first, in upper case: what
`utohexstr(v)` gives once it is padded with zeros to `width` characters. -/
def hexStr (width v : Nat) : List Char :=
  (List.range width).reverse.map (fun i => hexDigit (v / 16 ^ i % 16))

/-- What the library routine `llvm::yaml::escape(Input, EscapePrintable = true)`, which line
117 calls, writes for one character of its input (the routine is LLVM code,
`lib/Support/YAMLParser.cpp`, and reads the input as UTF-8): backslash and double quote get a
backslash in front, the control characters below U+0020 and every character from U+0080 on are
written as escapes, and every other character, the comma and the single quote included, is
written as it is. -/
def yamlEscapeChar (c : Char) : List Char :=
  if c = '\\' then ['\\', '\\']
  else if c = '"' then ['\\', '"']
  else if c.toNat = 0 then ['\\', '0']
  else if c.toNat = 0x07 then ['\\', 'a']
  else if c.toNat = 0x08 then ['\\', 'b']
  else if c.toNat = 0x09 then ['\\', 't']
  else if c.toNat = 0x0A then ['\\', 'n']
  else if c.toNat = 0x0B then ['\\', 'v']
  else if c.toNat = 0x0C then ['\\', 'f']
  else if c.toNat = 0x0D then ['\\', 'r']
  else if c.toNat = 0x1B then ['\\', 'e']
  else if c.toNat < 0x20 then '\\' :: 'x' :: hexStr 2 c.toNat
  else if 0x80 ≤ c.toNat then
    if c.toNat = 0x85 then ['\\', 'N']
    else if c.toNat = 0xA0 then ['\\', '_']
    else if c.toNat = 0x2028 then ['\\', 'L']
    else if c.toNat = 0x2029 then ['\\', 'P']
    else if c.toNat < 0x100 then '\\' :: 'x' :: hexStr 2 c.toNat
    else if c.toNat < 0x10000 then '\\' :: 'u' :: hexStr 4 c.toNat
    else '\\' :: 'U' :: hexStr 8 c.toNat
  else [c]

/-- The library routine `llvm::yaml::escape` with its default `EscapePrintable = true`, as
line 117 calls it, on a text given by its characters. -/
def yamlEscape (Input : String) : String :=
  ⟨Input.data.flatMap yamlEscapeChar⟩

/-- Every double quote of a text has a backslash right before it. -/
def QuotesEscaped (l : List Char) : Prop :=
  ∀ pre post : List Char, l = pre ++ '"' :: post → ∃ pre', pre = pre' ++ ['\\']

/-- A file system with no file, where the lock is not held. -/
def emptyFS : FileSystem :=
  ⟨fun _ => none, false⟩

/-- Concatenation of a list of strings. -/
def concatAll (l : List String) : String :=
  l.foldr (fun x acc => x ++ acc) ""

/-- The record of a unit followed by its newline: `<count>,<escaped-text>` where the count is
the decimal rendering of `orderedInternal.size()`. -/
def recordLine (render : SynModule n → String) (escape : String → String) (F : FunctionIR n)
    (u : VState n) : String :=
  toString u.Instructions.length ++ "," ++
    escape (render (buildModule F u.LiveIns u.Instructions)) ++ "\n"

/-- Whether block `BB` contains a supported instruction. -/
def hasSupported (F : FunctionIR n) (BB : BlockId) : Bool :=
  (F.blockInsts BB).any (fun I => F.supported I)

/-! ## Basic facts about `Visit` -/

theorem Visit_succ (F : FunctionIR n) (inc : Bool) (BB : BlockId) (fuel : Nat) (V : Fin n)
    (s : VState n) :
    Visit F inc BB (fuel + 1) V s =
      if F.isConstant V then some s
      else if V ∈ s.Visited then some s
      else if F.internal inc BB V then
        ((F.operands V).foldlM (fun st o => Visit F inc BB fuel o st) (s.mark V)).map
          (fun s2 => s2.push V)
      else some ((s.mark V).boundary F V) := by
  rw [Visit]
  by_cases h1 : F.isConstant V = true
  · simp [h1]
  by_cases h2 : V ∈ s.Visited
  · simp [h1, h2]
  simp only [h1, h2, if_false]
  unfold FunctionIR.internal FunctionIR.operands VState.boundary FunctionIR.isVoid
    VState.mark VState.push
  cases hk : (F.info V).kind with
  | constant => cases hv : (F.info V).ty.isVoidTy <;> simp [hv]
  | argument => cases hv : (F.info V).ty.isVoidTy <;> simp [hv]
  | instruction op parent ops =>
    simp only [ValueKind.operands]
    by_cases hc : (!isSupported op || (!inc && parent != BB)) = true
    · cases hv : (F.info V).ty.isVoidTy <;> simp [hc, hv]
    · simp [hc]

@[simp] theorem VState.mark_Visited (s : VState n) (V : Fin n) :
    (s.mark V).Visited = V :: s.Visited := rfl

@[simp] theorem VState.mark_Instructions (s : VState n) (V : Fin n) :
    (s.mark V).Instructions = s.Instructions := rfl

@[simp] theorem VState.mark_LiveIns (s : VState n) (V : Fin n) :
    (s.mark V).LiveIns = s.LiveIns := rfl

@[simp] theorem VState.push_Visited (s : VState n) (V : Fin n) :
    (s.push V).Visited = s.Visited := rfl

@[simp] theorem VState.push_Instructions (s : VState n) (V : Fin n) :
    (s.push V).Instructions = s.Instructions ++ [V] := rfl

@[simp] theorem VState.push_LiveIns (s : VState n) (V : Fin n) :
    (s.push V).LiveIns = s.LiveIns := rfl

@[simp] theorem VState.boundary_Visited (F : FunctionIR n) (s : VState n) (V : Fin n) :
    (s.boundary F V).Visited = s.Visited := by
  unfold VState.boundary; split <;> rfl

@[simp] theorem VState.boundary_Instructions (F : FunctionIR n) (s : VState n) (V : Fin n) :
    (s.boundary F V).Instructions = s.Instructions := by
  unfold VState.boundary; split <;> rfl

theorem VState.boundary_LiveIns (F : FunctionIR n) (s : VState n) (V : Fin n) :
    (s.boundary F V).LiveIns = if F.isVoid V then s.LiveIns else s.LiveIns ++ [V] := by
  unfold VState.boundary; split <;> rfl

/-- What `Visit` computes within its budget is a run of the traversal. -/
theorem run_of_foldlM (F : FunctionIR n) (inc : Bool) (BB : BlockId) :
    ∀ (fuel : Nat) (ops : List (Fin n)) (s s' : VState n),
      ops.foldlM (fun st o => Visit F inc BB fuel o st) s = some s' →
      Run F inc BB ops s s' := by
  intro fuel
  induction fuel with
  | zero =>
    intro ops s s' h
    cases ops with
    | nil =>
      simp only [List.foldlM_nil, pure, Option.some.injEq] at h
      subst h; exact Run.nil _
    | cons o os => simp [List.foldlM_cons, Visit] at h
  | succ fuel ih =>
    intro ops
    induction ops with
    | nil =>
      intro s s' h
      simp only [List.foldlM_nil, pure, Option.some.injEq] at h
      subst h; exact Run.nil _
    | cons V os ihos =>
      intro s s' h
      rw [List.foldlM_cons] at h
      obtain ⟨m, hm, hrest⟩ := Option.bind_eq_some.mp h
      rw [Visit_succ] at hm
      by_cases h1 : F.isConstant V = true
      · simp [h1] at hm
        subst hm
        exact Run.skip (Or.inl h1) (ihos _ _ hrest)
      by_cases h2 : V ∈ s.Visited
      · simp [h1, h2] at hm
        subst hm
        exact Run.skip (Or.inr h2) (ihos _ _ hrest)
      by_cases h3 : F.internal inc BB V = true
      · simp [h1, h2, h3] at hm
        obtain ⟨s1, hs1, rfl⟩ := hm
        exact Run.internal (by simpa using h1) h2 h3 (ih _ _ _ hs1) (ihos _ _ hrest)
      · simp [h1, h2, h3] at hm
        subst hm
        exact Run.boundary (by simpa using h1) h2 (by simpa using h3) (ihos _ _ hrest)

/-- The visited set only grows. -/
theorem Run.visited_subset {F : FunctionIR n} {inc : Bool} {BB : BlockId}
    {ops : List (Fin n)} {s s' : VState n} (h : Run F inc BB ops s s') :
    s.Visited ⊆ s'.Visited := by
  induction h with
  | nil => exact List.Subset.refl _
  | skip _ _ ih => exact ih
  | boundary _ _ _ _ ih =>
    intro v hv
    exact ih (by simp [hv])
  | internal _ _ _ _ _ ih1 ih2 =>
    intro v hv
    exact ih2 (by simpa using ih1 (by simp [hv]))

/-- A run is a function of the list and of the initial state. -/
theorem Run.deterministic {F : FunctionIR n} {inc : Bool} {BB : BlockId}
    {ops : List (Fin n)} {s s1 : VState n} (h1 : Run F inc BB ops s s1) :
    ∀ s2, Run F inc BB ops s s2 → s1 = s2 := by
  induction h1 with
  | nil => intro s2 h2; cases h2; rfl
  | skip hc _ ih =>
    intro s2 h2
    cases h2 with
    | skip _ hr => exact ih _ hr
    | boundary c v _ _ => rcases hc with hc | hc <;> simp_all
    | internal c v _ _ _ => rcases hc with hc | hc <;> simp_all
  | boundary c v i _ ih =>
    intro s2 h2
    cases h2 with
    | skip hc _ => rcases hc with hc | hc <;> simp_all
    | boundary _ _ _ hr => exact ih _ hr
    | internal _ _ i2 _ _ => simp_all
  | internal c v i _ _ ih1 ih2 =>
    intro s2 h2
    cases h2 with
    | skip hc _ => rcases hc with hc | hc <;> simp_all
    | boundary _ _ i2 _ => simp_all
    | internal _ _ _ hops hrest =>
      have := ih1 _ hops
      subst this
      exact ih2 _ hrest

theorem unvisited_le (F : FunctionIR n) (inc : Bool) (BB : BlockId) (s : VState n) :
    unvisited F inc BB s ≤ n := by
  unfold unvisited
  calc _ ≤ (Finset.univ : Finset (Fin n)).card := Finset.card_filter_le _ _
    _ = n := by simp

theorem unvisited_mono (F : FunctionIR n) (inc : Bool) (BB : BlockId) {s t : VState n}
    (h : s.Visited ⊆ t.Visited) : unvisited F inc BB t ≤ unvisited F inc BB s := by
  unfold unvisited
  apply Finset.card_le_card
  intro v hv
  simp only [Finset.mem_filter, Finset.mem_univ, true_and] at hv ⊢
  exact ⟨hv.1, fun hs => hv.2 (h hs)⟩

theorem unvisited_mark_lt (F : FunctionIR n) (inc : Bool) (BB : BlockId) {s : VState n}
    {V : Fin n} (hi : F.internal inc BB V = true) (hv : V ∉ s.Visited) :
    unvisited F inc BB (s.mark V) < unvisited F inc BB s := by
  unfold unvisited
  apply Finset.card_lt_card
  rw [Finset.ssubset_iff_of_subset]
  · exact ⟨V, by simp [hi, hv], by simp⟩
  · intro v hv
    simp only [Finset.mem_filter, Finset.mem_univ, true_and, VState.mark_Visited,
      List.mem_cons, not_or] at hv ⊢
    exact ⟨hv.1, hv.2.2⟩

/-- A budget above the number of values that can still join the DAG is never exhausted. -/
theorem foldlM_total (F : FunctionIR n) (inc : Bool) (BB : BlockId) :
    ∀ (fuel : Nat) (ops : List (Fin n)) (s : VState n), unvisited F inc BB s < fuel →
      ∃ s', ops.foldlM (fun st o => Visit F inc BB fuel o st) s = some s' := by
  intro fuel
  induction fuel with
  | zero => intro ops s h; exact absurd h (Nat.not_lt_zero _)
  | succ fuel ih =>
    intro ops
    induction ops with
    | nil => intro s _; exact ⟨s, rfl⟩
    | cons V os ihos =>
      intro s hs
      rw [List.foldlM_cons, Visit_succ]
      by_cases h1 : F.isConstant V = true
      · simpa [h1] using ihos s hs
      by_cases h2 : V ∈ s.Visited
      · simpa [h1, h2] using ihos s hs
      by_cases h3 : F.internal inc BB V = true
      · have hlt := unvisited_mark_lt F inc BB h3 h2
        obtain ⟨s1, hs1⟩ := ih (F.operands V) (s.mark V) (by omega)
        have hsub := (run_of_foldlM F inc BB _ _ _ _ hs1).visited_subset
        have hle : unvisited F inc BB (s1.push V) ≤ unvisited F inc BB (s.mark V) :=
          unvisited_mono F inc BB (by simpa using hsub)
        obtain ⟨s', hs'⟩ := ihos (s1.push V) (by omega)
        exact ⟨s', by simp [h1, h2, h3, hs1, hs']⟩
      · have hle : unvisited F inc BB ((s.mark V).boundary F V) ≤ unvisited F inc BB s :=
          unvisited_mono F inc BB (by simp)
        obtain ⟨s', hs'⟩ := ihos ((s.mark V).boundary F V) (by omega)
        exact ⟨s', by simpa [h1, h2, h3] using hs'⟩

/-- The traversal of a block always returns, and what it returns is the run over the
instructions of the block from the empty state. -/
theorem traverse_run (F : FunctionIR n) (inc : Bool) (BB : BlockId) :
    ∃ u, traverse F inc BB = some u ∧ Run F inc BB (F.blockInsts BB) VState.init u := by
  obtain ⟨u, hu⟩ := foldlM_total F inc BB (n + 1) (F.blockInsts BB) VState.init
    (Nat.lt_succ_of_le (unvisited_le F inc BB _))
  exact ⟨u, hu, run_of_foldlM F inc BB _ _ _ _ hu⟩

theorem traverse_eq_of_run {F : FunctionIR n} {inc : Bool} {BB : BlockId} {u : VState n}
    (h : Run F inc BB (F.blockInsts BB) VState.init u) : traverse F inc BB = some u := by
  obtain ⟨u', hu', hr⟩ := traverse_run F inc BB
  rw [hu', hr.deterministic u h]

theorem run_of_traverse {F : FunctionIR n} {inc : Bool} {BB : BlockId} {u : VState n}
    (h : traverse F inc BB = some u) : Run F inc BB (F.blockInsts BB) VState.init u :=
  run_of_foldlM F inc BB _ _ _ _ h

/-! ## Invariants of the traversal -/

theorem internal_not_constant {F : FunctionIR n} {inc : Bool} {BB : BlockId} {v : Fin n}
    (h : F.internal inc BB v = true) : F.isConstant v = false := by
  unfold FunctionIR.internal at h
  unfold FunctionIR.isConstant
  cases hk : (F.info v).kind <;> simp_all

theorem internal_supported {F : FunctionIR n} {inc : Bool} {BB : BlockId} {v : Fin n}
    (h : F.internal inc BB v = true) : F.supported v = true := by
  unfold FunctionIR.internal at h
  unfold FunctionIR.supported
  cases hk : (F.info v).kind <;> simp_all

theorem internal_scope {F : FunctionIR n} {inc : Bool} {BB : BlockId} {v : Fin n}
    (h : F.internal inc BB v = true) : inc = true ∨ F.inBlock BB v = true := by
  unfold FunctionIR.internal at h
  unfold FunctionIR.inBlock
  cases hk : (F.info v).kind <;> cases inc <;> simp_all

theorem internal_iff (F : FunctionIR n) (inc : Bool) (BB : BlockId) (v : Fin n) :
    F.internal inc BB v = true ↔
      F.supported v = true ∧ (inc = true ∨ F.inBlock BB v = true) := by
  unfold FunctionIR.internal FunctionIR.supported FunctionIR.inBlock
  cases hk : (F.info v).kind <;> cases inc <;> simp

theorem mem_blockInsts (F : FunctionIR n) (BB : BlockId) (v : Fin n) :
    v ∈ F.blockInsts BB ↔ F.inBlock BB v = true := by
  simp [FunctionIR.blockInsts, List.mem_filter]

theorem operand_not_void (F : FunctionIR n) {v o : Fin n} (h : o ∈ F.operands v) :
    F.isVoid o = false :=
  F.operands_first_class v o h

/-- The list `Instructions` only grows, at its end. -/
theorem Run.instructions_grow {F : FunctionIR n} {inc : Bool} {BB : BlockId}
    {ops : List (Fin n)} {s s' : VState n} (h : Run F inc BB ops s s') :
    ∃ l, s'.Instructions = s.Instructions ++ l := by
  induction h with
  | nil => exact ⟨[], by simp⟩
  | skip _ _ ih => exact ih
  | boundary _ _ _ _ ih => simpa using ih
  | @internal V os s s1 s' _ _ _ _ _ ih1 ih2 =>
    obtain ⟨l1, h1⟩ := ih1
    obtain ⟨l2, h2⟩ := ih2
    exact ⟨l1 ++ [V] ++ l2, by simp_all⟩

/-- The list `LiveIns` only grows, at its end. -/
theorem Run.liveIns_grow {F : FunctionIR n} {inc : Bool} {BB : BlockId}
    {ops : List (Fin n)} {s s' : VState n} (h : Run F inc BB ops s s') :
    ∃ l, s'.LiveIns = s.LiveIns ++ l := by
  induction h with
  | nil => exact ⟨[], by simp⟩
  | skip _ _ ih => exact ih
  | @boundary V os s s' _ _ _ _ ih =>
    obtain ⟨l, hl⟩ := ih
    rw [VState.boundary_LiveIns] at hl
    by_cases hv : F.isVoid V = true
    · exact ⟨l, by simpa [hv] using hl⟩
    · exact ⟨[V] ++ l, by simpa [hv] using hl⟩
  | internal _ _ _ _ _ ih1 ih2 =>
    obtain ⟨l1, h1⟩ := ih1
    obtain ⟨l2, h2⟩ := ih2
    exact ⟨l1 ++ l2, by simp_all⟩

theorem Run.instructions_subset {F : FunctionIR n} {inc : Bool} {BB : BlockId}
    {ops : List (Fin n)} {s s' : VState n} (h : Run F inc BB ops s s') :
    s.Instructions ⊆ s'.Instructions := by
  obtain ⟨l, hl⟩ := h.instructions_grow
  rw [hl]; exact List.subset_append_left _ _

theorem Run.liveIns_subset {F : FunctionIR n} {inc : Bool} {BB : BlockId}
    {ops : List (Fin n)} {s s' : VState n} (h : Run F inc BB ops s s') :
    s.LiveIns ⊆ s'.LiveIns := by
  obtain ⟨l, hl⟩ := h.liveIns_grow
  rw [hl]; exact List.subset_append_left _ _

/-- After the run every value of the list is a constant or has been visited. -/
theorem Run.ops_done {F : FunctionIR n} {inc : Bool} {BB : BlockId}
    {ops : List (Fin n)} {s s' : VState n} (h : Run F inc BB ops s s') :
    ∀ o ∈ ops, F.isConstant o = true ∨ o ∈ s'.Visited := by
  induction h with
  | nil => intro o ho; cases ho
  | skip hc hr ih =>
    intro o ho
    rcases List.mem_cons.mp ho with rfl | ho
    · exact hc.imp id (fun hv => hr.visited_subset hv)
    · exact ih o ho
  | boundary _ _ _ hr ih =>
    intro o ho
    rcases List.mem_cons.mp ho with rfl | ho
    · exact Or.inr (hr.visited_subset (by simp))
    · exact ih o ho
  | internal _ _ _ hops hr _ ih =>
    intro o ho
    rcases List.mem_cons.mp ho with rfl | ho
    · exact Or.inr (hr.visited_subset (by simpa using hops.visited_subset (by simp)))
    · exact ih o ho

/-- A value that is visited but not yet in `Instructions` is not appended by the run. -/
theorem Run.pending_stays {F : FunctionIR n} {inc : Bool} {BB : BlockId}
    {ops : List (Fin n)} {s s' : VState n} (h : Run F inc BB ops s s') :
    ∀ v ∈ s.Visited, v ∉ s.Instructions → v ∉ s'.Instructions := by
  induction h with
  | nil => intro v _ h; exact h
  | skip _ _ ih => exact ih
  | boundary _ _ _ _ ih =>
    intro v hv hn
    exact ih v (by simp [hv]) (by simpa using hn)
  | @internal V os s s1 s' _ hV _ hops _ ih1 ih2 =>
    intro v hv hn
    have h1 := ih1 v (by simp [hv]) (by simpa using hn)
    refine ih2 v (by simpa using hops.visited_subset (by simp [hv])) ?_
    simp only [VState.push_Instructions, List.mem_append, List.mem_singleton, not_or]
    exact ⟨h1, fun hEq => hV (hEq ▸ hv)⟩

/-- A run leaves no value pending that was not pending before it. -/
theorem Run.no_new_pending {F : FunctionIR n} {inc : Bool} {BB : BlockId}
    {ops : List (Fin n)} {s s' : VState n} (h : Run F inc BB ops s s') :
    ∀ v ∈ s'.Visited, F.internal inc BB v = true → v ∉ s'.Instructions → v ∈ s.Visited := by
  induction h with
  | nil => intro v hv _ _; exact hv
  | skip _ _ ih => exact ih
  | @boundary V os s s' _ _ hb _ ih =>
    intro v hv hi hn
    have := ih v hv hi hn
    simp only [VState.boundary_Visited, VState.mark_Visited, List.mem_cons] at this
    rcases this with rfl | h
    · rw [hb] at hi; cases hi
    · exact h
  | @internal V os s s1 s' _ _ _ hops hr ih1 ih2 =>
    intro v hv hi hn
    have h2 := ih2 v hv hi hn
    have hn2 : v ∉ (s1.push V).Instructions := fun hm => hn (hr.instructions_subset hm)
    simp only [VState.push_Instructions, List.mem_append, List.mem_singleton, not_or] at hn2
    have h1 := ih1 v (by simpa using h2) hi hn2.1
    simp only [VState.mark_Visited, List.mem_cons] at h1
    rcases h1 with rfl | h
    · exact absurd rfl hn2.2
    · exact h

theorem Inv.init (F : FunctionIR n) (inc : Bool) (BB : BlockId) :
    Inv F inc BB (VState.init : VState n) := by
  constructor <;> simp [VState.init]

theorem Inv.boundary_step {F : FunctionIR n} {inc : Bool} {BB : BlockId} {s : VState n}
    {V : Fin n} (hs : Inv F inc BB s) (hc : F.isConstant V = false) (hv : V ∉ s.Visited)
    (hb : F.internal inc BB V = false) : Inv F inc BB ((s.mark V).boundary F V) := by
  have hVL : V ∉ s.LiveIns := fun h => hv (hs.liveIns_visited V h)
  constructor
  · intro v
    rw [VState.boundary_LiveIns]
    split
    · intro h; simpa using Or.inr (hs.liveIns_visited v h)
    · intro h
      rcases List.mem_append.mp h with h | h
      · simpa using Or.inr (hs.liveIns_visited v h)
      · simp only [List.mem_singleton] at h; simp [h]
  · intro v
    rw [VState.boundary_LiveIns]
    split
    · intro h; exact hs.liveIns_boundary v h
    · rename_i hvoid
      intro h
      rcases List.mem_append.mp h with h | h
      · exact hs.liveIns_boundary v h
      · simp only [List.mem_singleton] at h
        subst h
        exact ⟨by simpa using hvoid, hb⟩
  · rw [VState.boundary_LiveIns]
    split
    · exact hs.liveIns_nodup
    · exact List.Nodup.append hs.liveIns_nodup (List.nodup_singleton V)
        (by simpa using hVL)
  · intro v h
    simpa using Or.inr (hs.insts_visited v (by simpa using h))
  · intro v h
    exact hs.insts_internal v (by simpa using h)
  · simpa using hs.insts_nodup
  · intro v h
    simp only [VState.boundary_Visited, VState.mark_Visited, List.mem_cons] at h
    rcases h with rfl | h
    · exact hc
    · exact hs.visited_nonconst v h
  · intro v h hi
    simp only [VState.boundary_Visited, VState.mark_Visited, List.mem_cons] at h
    rw [VState.boundary_LiveIns]
    rcases h with rfl | h
    · by_cases hvoid : F.isVoid v = true
      · exact Or.inl hvoid
      · right; simp [hvoid]
    · rcases hs.boundary_classified v h hi with h' | h'
      · exact Or.inl h'
      · right; split
        · exact h'
        · exact List.mem_append_left _ h'
  · intro I hI o ho
    rcases hs.operands_visited I (by simpa using hI) o ho with h | h
    · exact Or.inl h
    · right; simp [h]

theorem Inv.mark_step {F : FunctionIR n} {inc : Bool} {BB : BlockId} {s : VState n}
    {V : Fin n} (hs : Inv F inc BB s) (hc : F.isConstant V = false)
    (hi : F.internal inc BB V = true) : Inv F inc BB (s.mark V) := by
  constructor
  · intro v h; simpa using Or.inr (hs.liveIns_visited v h)
  · exact hs.liveIns_boundary
  · exact hs.liveIns_nodup
  · intro v h; simpa using Or.inr (hs.insts_visited v h)
  · exact hs.insts_internal
  · exact hs.insts_nodup
  · intro v h
    simp only [VState.mark_Visited, List.mem_cons] at h
    rcases h with rfl | h
    · exact hc
    · exact hs.visited_nonconst v h
  · intro v h hb
    simp only [VState.mark_Visited, List.mem_cons] at h
    rcases h with rfl | h
    · rw [hi] at hb; cases hb
    · exact hs.boundary_classified v h hb
  · intro I hI o ho
    rcases hs.operands_visited I hI o ho with h | h
    · exact Or.inl h
    · right; simp [h]

theorem Inv.push_step {F : FunctionIR n} {inc : Bool} {BB : BlockId} {s : VState n}
    {V : Fin n} (hs : Inv F inc BB s) (hV : V ∈ s.Visited) (hn : V ∉ s.Instructions)
    (hi : F.internal inc BB V = true)
    (hops : ∀ o ∈ F.operands V, F.isConstant o = true ∨ o ∈ s.Visited) :
    Inv F inc BB (s.push V) := by
  constructor
  · exact hs.liveIns_visited
  · exact hs.liveIns_boundary
  · exact hs.liveIns_nodup
  · intro v h
    simp only [VState.push_Instructions, List.mem_append, List.mem_singleton] at h
    rcases h with h | rfl
    · exact hs.insts_visited v h
    · exact hV
  · intro v h
    simp only [VState.push_Instructions, List.mem_append, List.mem_singleton] at h
    rcases h with h | rfl
    · exact hs.insts_internal v h
    · exact hi
  · exact List.Nodup.append hs.insts_nodup (List.nodup_singleton V) (by simpa using hn)
  · exact hs.visited_nonconst
  · exact hs.boundary_classified
  · intro I hI o ho
    simp only [VState.push_Instructions, List.mem_append, List.mem_singleton] at hI
    rcases hI with h | rfl
    · exact hs.operands_visited I h o ho
    · exact hops o ho

/-- The invariant is kept by every run. -/
theorem Run.inv {F : FunctionIR n} {inc : Bool} {BB : BlockId}
    {ops : List (Fin n)} {s s' : VState n} (h : Run F inc BB ops s s') :
    Inv F inc BB s → Inv F inc BB s' := by
  induction h with
  | nil => exact id
  | skip _ _ ih => exact ih
  | boundary hc hv hb _ ih => exact fun hs => ih (hs.boundary_step hc hv hb)
  | @internal V os s s1 s' hc hv hi hops _ ih1 ih2 =>
    intro hs
    have h1 := ih1 (hs.mark_step hc hi)
    have hV1 : V ∈ s1.Visited := hops.visited_subset (by simp)
    have hn1 : V ∉ s1.Instructions :=
      hops.pending_stays V (by simp) (fun hm => hv (hs.insts_visited V hm))
    exact ih2 (h1.push_step hV1 hn1 hi hops.ops_done)

/-- When the loop over the block is over, every visited value that can join the DAG is in
`Instructions`. -/
theorem Run.top_complete {F : FunctionIR n} {inc : Bool} {BB : BlockId}
    {ops : List (Fin n)} {u : VState n} (h : Run F inc BB ops VState.init u) :
    ∀ v ∈ u.Visited, F.internal inc BB v = true → v ∈ u.Instructions := by
  intro v hv hi
  by_contra hn
  have := h.no_new_pending v hv hi hn
  simp [VState.init] at this

/-! ## Order of `Instructions` -/

theorem append_singleton_eq_append_cons {α : Type} {l pre post : List α} {V I : α}
    (h : l ++ [V] = pre ++ I :: post) :
    (post = [] ∧ pre = l ∧ I = V) ∨ ∃ post', post = post' ++ [V] ∧ l = pre ++ I :: post' := by
  rcases List.eq_nil_or_concat post with rfl | ⟨post', x, rfl⟩
  · left
    have h' : l ++ [V] = pre ++ [I] := h
    obtain ⟨h1, h2⟩ := List.append_inj' h' rfl
    simp only [List.cons.injEq, and_true] at h2
    exact ⟨rfl, h1.symm, h2.symm⟩
  · right
    have h' : l ++ [V] = (pre ++ I :: post') ++ [x] := by simpa using h
    obtain ⟨h1, h2⟩ := List.append_inj' h' rfl
    simp only [List.cons.injEq, and_true] at h2
    subst h2
    exact ⟨post', by simp, h1⟩

/-- A rank that decreases along the operand edges of the DAG rules cycles out. -/
theorem acyclic_of_rank {F : FunctionIR n} {inc : Bool} {BB : BlockId} (rank : Fin n → Nat)
    (h : ∀ a : Fin n, F.internal inc BB a = true → ∀ b ∈ F.operands a, rank b < rank a) :
    Acyclic F inc BB := by
  have key : ∀ a b, Relation.TransGen (InternalEdge F inc BB) a b → rank b < rank a := by
    intro a b hab
    induction hab with
    | single e => exact h _ e.1 _ e.2
    | tail _ e ih => exact lt_trans (h _ e.1 _ e.2) ih
  intro v hv
  exact lt_irrefl _ (key v v hv)

theorem acyclicRegion_of_rank {F : FunctionIR n} {inc : Bool} {BB : BlockId}
    (rank : Fin n → Nat)
    (h : ∀ a : Fin n, F.internal inc BB a = true → ∀ b ∈ F.operands a, rank b < rank a) :
    AcyclicRegion F inc BB :=
  fun v _ => acyclic_of_rank rank h v

theorem operandAcyclic_of_rank {F : FunctionIR n} (rank : Fin n → Nat)
    (h : ∀ a : Fin n, ∀ b ∈ F.operands a, rank b < rank a) : OperandAcyclic F := by
  have key : ∀ a b, Relation.TransGen (fun a b => b ∈ F.operands a) a b →
      rank b < rank a := by
    intro a b hab
    induction hab with
    | single e => exact h _ _ e
    | tail _ e ih => exact lt_trans (h _ _ e) ih
  intro v hv
  exact lt_irrefl _ (key v v hv)

/-- When no value of `Instructions` is reachable from itself, a run keeps the internal operands
of every member of `Instructions` before it, provided every pending value reaches the values of
the list. -/
theorem Run.ordered {F : FunctionIR n} {inc : Bool} {BB : BlockId}
    {ops : List (Fin n)} {s s' : VState n} (h : Run F inc BB ops s s') :
    (∀ v ∈ s'.Instructions, ¬ Relation.TransGen (InternalEdge F inc BB) v v) →
    Inv F inc BB s →
    (∀ g ∈ s.Visited, g ∉ s.Instructions → F.internal inc BB g = true →
      ∀ o ∈ ops, Relation.TransGen (InternalEdge F inc BB) g o) →
    InternalOperandsEarlier F inc BB s → InternalOperandsEarlier F inc BB s' := by
  induction h with
  | nil => exact fun _ _ _ h => h
  | skip _ _ ih =>
    intro hacyc hs hp ho
    exact ih hacyc hs
      (fun g hg hn hi o hmem => hp g hg hn hi o (List.mem_cons_of_mem _ hmem)) ho
  | @boundary V os s s' hc hv hb _ ih =>
    intro hacyc hs hp ho
    refine ih hacyc (hs.boundary_step hc hv hb) ?_ ?_
    · intro g hg hn hi o hmem
      simp only [VState.boundary_Visited, VState.mark_Visited, List.mem_cons] at hg
      rcases hg with rfl | hg
      · rw [hb] at hi; cases hi
      · exact hp g hg (by simpa using hn) hi o (List.mem_cons_of_mem _ hmem)
    · intro pre I post hEq
      exact ho pre I post (by simpa using hEq)
  | @internal V os s s1 s' hc hv hi hops hrest ih1 ih2 =>
    intro hacyc hs hp ho
    have hVacyc : ¬ Relation.TransGen (InternalEdge F inc BB) V V :=
      hacyc V (hrest.instructions_subset (by simp))
    have hord1 : InternalOperandsEarlier F inc BB s1 := by
      refine ih1 (fun v hv => hacyc v (hrest.instructions_subset (by simp [hv])))
        (hs.mark_step hc hi) ?_ ?_
      · intro g hg hn hgi o hmem
        simp only [VState.mark_Visited, List.mem_cons] at hg
        rcases hg with rfl | hg
        · exact Relation.TransGen.single ⟨hi, hmem⟩
        · exact Relation.TransGen.tail (hp g hg (by simpa using hn) hgi V (List.mem_cons_self _ _))
            ⟨hi, hmem⟩
      · intro pre I post hEq
        exact ho pre I post (by simpa using hEq)
    have hinv1 : Inv F inc BB s1 := hops.inv (hs.mark_step hc hi)
    have hinv2 : Inv F inc BB (s1.push V) :=
      (Run.internal hc hv hi hops (Run.nil _)).inv hs
    refine ih2 hacyc hinv2 ?_ ?_
    · intro g hg hn hgi o hmem
      simp only [VState.push_Visited] at hg
      simp only [VState.push_Instructions, List.mem_append, List.mem_singleton, not_or] at hn
      have hg' := hops.no_new_pending g hg hgi hn.1
      simp only [VState.mark_Visited, List.mem_cons] at hg'
      rcases hg' with rfl | hg'
      · exact absurd rfl hn.2
      · exact hp g hg' (fun hm => hn.1 (hops.instructions_subset (by simpa using hm))) hgi o
          (List.mem_cons_of_mem _ hmem)
    · intro pre I post hEq
      simp only [VState.push_Instructions] at hEq
      rcases append_singleton_eq_append_cons hEq with ⟨_, hpre, hI⟩ | ⟨post', _, hl⟩
      · subst hpre; subst hI
        intro o hmem hoi
        by_contra hn
        have hov : o ∈ s1.Visited := by
          rcases hops.ops_done o hmem with h | h
          · rw [internal_not_constant hoi] at h; cases h
          · exact h
        have hg' := hops.no_new_pending o hov hoi hn
        simp only [VState.mark_Visited, List.mem_cons] at hg'
        rcases hg' with rfl | hg'
        · exact hVacyc (Relation.TransGen.single ⟨hi, hmem⟩)
        · have hreach := hp o hg'
            (fun hm => hn (hops.instructions_subset (by simpa using hm))) hoi I
            (List.mem_cons_self _ _)
          exact hVacyc (Relation.TransGen.head ⟨hi, hmem⟩ hreach)
      · exact hord1 pre I post' hl

/-- Every operand of a member of `Instructions` is, when the loop over the block is over, a
constant, a member of `LiveIns` or a member of `Instructions`. -/
theorem Run.operand_classified {F : FunctionIR n} {inc : Bool} {BB : BlockId}
    {ops : List (Fin n)} {u : VState n} (h : Run F inc BB ops VState.init u) :
    ∀ I ∈ u.Instructions, ∀ o ∈ F.operands I,
      F.isConstant o = true ∨ o ∈ u.LiveIns ∨
        (F.internal inc BB o = true ∧ o ∈ u.Instructions) := by
  intro I hI o ho
  have hinv := h.inv (Inv.init F inc BB)
  rcases hinv.operands_visited I hI o ho with hc | hv
  · exact Or.inl hc
  · by_cases hi : F.internal inc BB o = true
    · exact Or.inr (Or.inr ⟨hi, h.top_complete o hv hi⟩)
    · rcases hinv.boundary_classified o hv (by simpa using hi) with hvoid | hl
      · rw [operand_not_void F ho] at hvoid; cases hvoid
      · exact Or.inr (Or.inl hl)

/-! ## Which instructions are extracted -/

/-- Every member of `Instructions` that a run adds is reached from a value of the list, itself
joining the DAG, through operand edges of instructions that join the DAG. -/
theorem Run.sound {F : FunctionIR n} {inc : Bool} {BB : BlockId}
    {ops : List (Fin n)} {s s' : VState n} (h : Run F inc BB ops s s') :
    ∀ I ∈ s'.Instructions, I ∈ s.Instructions ∨
      ∃ o ∈ ops, F.internal inc BB o = true ∧
        Relation.ReflTransGen (InternalEdge F inc BB) o I := by
  induction h with
  | nil => exact fun I hI => Or.inl hI
  | skip _ _ ih =>
    intro I hI
    rcases ih I hI with h | ⟨o, ho, h⟩
    · exact Or.inl h
    · exact Or.inr ⟨o, List.mem_cons_of_mem _ ho, h⟩
  | boundary _ _ _ _ ih =>
    intro I hI
    rcases ih I hI with h | ⟨o, ho, h⟩
    · exact Or.inl (by simpa using h)
    · exact Or.inr ⟨o, List.mem_cons_of_mem _ ho, h⟩
  | @internal V os s s1 s' _ _ hi _ _ ih1 ih2 =>
    intro I hI
    rcases ih2 I hI with h | ⟨o, ho, h⟩
    · simp only [VState.push_Instructions, List.mem_append, List.mem_singleton] at h
      rcases h with h | rfl
      · rcases ih1 I h with h' | ⟨o, ho, _, hreach⟩
        · exact Or.inl (by simpa using h')
        · exact Or.inr ⟨V, List.mem_cons_self _ _, hi,
            Relation.ReflTransGen.head ⟨hi, ho⟩ hreach⟩
      · exact Or.inr ⟨I, List.mem_cons_self _ _, hi, Relation.ReflTransGen.refl⟩
    · exact Or.inr ⟨o, List.mem_cons_of_mem _ ho, h⟩

/-- When the loop over the block is over, `Instructions` holds every value of the list that
can join the DAG. -/
theorem Run.roots_extracted {F : FunctionIR n} {inc : Bool} {BB : BlockId}
    {ops : List (Fin n)} {u : VState n} (h : Run F inc BB ops VState.init u) :
    ∀ o ∈ ops, F.internal inc BB o = true → o ∈ u.Instructions := by
  intro o ho hi
  rcases h.ops_done o ho with hc | hv
  · rw [internal_not_constant hi] at hc; cases hc
  · exact h.top_complete o hv hi

/-- When the loop over the block is over, `Instructions` is closed under the operand edges of
the DAG. -/
theorem Run.closed {F : FunctionIR n} {inc : Bool} {BB : BlockId}
    {ops : List (Fin n)} {u : VState n} (h : Run F inc BB ops VState.init u) :
    ∀ a b, a ∈ u.Instructions → Relation.ReflTransGen (InternalEdge F inc BB) a b →
      F.internal inc BB b = true → b ∈ u.Instructions := by
  intro a b ha hab
  induction hab with
  | refl => exact fun _ => ha
  | @tail c d _ hcd ih =>
    intro hd
    have hc := ih hcd.1
    rcases h.operand_classified c hc d hcd.2 with hk | hl | ⟨_, hm⟩
    · rw [internal_not_constant hd] at hk; cases hk
    · have := ((h.inv (Inv.init F inc BB)).liveIns_boundary d hl).2
      rw [hd] at this; cases this
    · exact hm

theorem block_supported_internal {F : FunctionIR n} (inc : Bool) {BB : BlockId} {I : Fin n}
    (hI : I ∈ F.blockInsts BB) (hs : F.supported I = true) : F.internal inc BB I = true :=
  (internal_iff F inc BB I).mpr ⟨hs, Or.inr ((mem_blockInsts F BB I).mp hI)⟩

/-- The traversal extracts something exactly when the block has a supported instruction. -/
theorem Run.nonempty_iff {F : FunctionIR n} {inc : Bool} {BB : BlockId} {u : VState n}
    (h : Run F inc BB (F.blockInsts BB) VState.init u) :
    u.Instructions ≠ [] ↔ ∃ I ∈ F.blockInsts BB, F.supported I = true := by
  constructor
  · intro hne
    obtain ⟨I, hI⟩ := List.exists_mem_of_ne_nil _ hne
    rcases h.sound I hI with h0 | ⟨o, ho, hi, _⟩
    · simp [VState.init] at h0
    · exact ⟨o, ho, internal_supported hi⟩
  · rintro ⟨I, hI, hs⟩
    exact List.ne_nil_of_mem (h.roots_extracted I hI (block_supported_internal inc hI hs))

theorem reach_of_chain {F : FunctionIR n} {inc : Bool} {BB : BlockId} :
    ∀ (l : List (Fin n)) (a : Fin n), List.Chain (fun a b => b ∈ F.operands a) a l →
      (∀ v ∈ a :: l, F.internal inc BB v = true) →
      Relation.ReflTransGen (InternalEdge F inc BB) a
        ((a :: l).getLast (List.cons_ne_nil _ _)) := by
  intro l
  induction l with
  | nil => intro a _ _; exact Relation.ReflTransGen.refl
  | cons b rest ih =>
    intro a hch hall
    rw [List.chain_cons] at hch
    rw [List.getLast_cons (List.cons_ne_nil _ _)]
    exact Relation.ReflTransGen.head ⟨hall a (List.mem_cons_self _ _), hch.1⟩
      (ih b hch.2 (fun v hv => hall v (List.mem_cons_of_mem _ hv)))

theorem chain_of_reach {F : FunctionIR n} {inc : Bool} {BB : BlockId} {a b : Fin n}
    (h : Relation.ReflTransGen (InternalEdge F inc BB) a b)
    (hb : F.internal inc BB b = true) :
    ∃ l, List.Chain (fun a b => b ∈ F.operands a) a l ∧
      (a :: l).getLast (List.cons_ne_nil _ _) = b ∧
      ∀ v ∈ a :: l, F.internal inc BB v = true := by
  induction h using Relation.ReflTransGen.head_induction_on with
  | refl => exact ⟨[], List.Chain.nil, rfl, by simpa using hb⟩
  | @head a c hac _ ih =>
    obtain ⟨l, hch, hlast, hall⟩ := ih
    refine ⟨c :: l, List.Chain.cons hac.2 hch, ?_, ?_⟩
    · rw [List.getLast_cons (List.cons_ne_nil _ _)]
      exact hlast
    · intro v hv
      rcases List.mem_cons.mp hv with rfl | hv
      · exact hac.1
      · exact hall v hv

/-- What is extracted is what a chain of the DAG reaches from an instruction of the block. -/
theorem Run.mem_iff_chain {F : FunctionIR n} {inc : Bool} {BB : BlockId} {u : VState n}
    (h : Run F inc BB (F.blockInsts BB) VState.init u) (I : Fin n) :
    I ∈ u.Instructions ↔ ∃ I0 rest, IsExtractionChain F inc BB I0 rest I := by
  constructor
  · intro hI
    have hi := (h.inv (Inv.init F inc BB)).insts_internal I hI
    rcases h.sound I hI with h0 | ⟨o, ho, _, hreach⟩
    · simp [VState.init] at h0
    · obtain ⟨l, hch, hlast, hall⟩ := chain_of_reach hreach hi
      exact ⟨o, l, ho, hch, hlast, fun v hv => (internal_iff F inc BB v).mp (hall v hv)⟩
  · rintro ⟨I0, rest, h0, hch, hlast, hall⟩
    have hall' : ∀ v ∈ I0 :: rest, F.internal inc BB v = true :=
      fun v hv => (internal_iff F inc BB v).mpr (hall v hv)
    have hreach := reach_of_chain rest I0 hch hall'
    rw [hlast] at hreach
    have hIi : F.internal inc BB I = true := by
      rw [← hlast]
      exact hall' _ (List.getLast_mem _)
    exact h.closed I0 I (h.roots_extracted I0 h0 (hall' I0 (List.mem_cons_self _ _)))
      hreach hIi

/-! ## C1 -/

/-- C1, counterexample: on the two-instruction cycle `cycleIR` the traversal yields
`orderedInternal = [%1, %0]`, and the operand `%0` of `%1` is not a constant, not a live-in and
not earlier than `%1`. -/
theorem C1_counterexample :
    ∃ u, traverse cycleIR true 0 = some u ∧ ¬ TopologicallyOrdered cycleIR u := by
  refine ⟨⟨[1, 0], [], [1, 0]⟩, by decide, ?_⟩
  intro h
  have := h [] 1 [0] rfl 0 (by decide)
  revert this
  decide

/-- C1, as amended: for every block in which no extracted instruction is reachable from itself
through operand edges of the DAG, and either setting of includeLiveIns, the traversal returns a
unit in which every operand of every member of orderedInternal is a constant, a member of
liveIns, or an instruction that occurs strictly earlier in orderedInternal. -/
theorem C1_topological_order (F : FunctionIR n) (includeLiveIns : Bool) (BB : BlockId)
    (hacyc : AcyclicRegion F includeLiveIns BB) :
    ∃ u, traverse F includeLiveIns BB = some u ∧ TopologicallyOrdered F u := by
  obtain ⟨u, hu, hrun⟩ := traverse_run F includeLiveIns BB
  refine ⟨u, hu, ?_⟩
  have hord : InternalOperandsEarlier F includeLiveIns BB u :=
    hrun.ordered (fun v hv => hacyc v ((hrun.mem_iff_chain v).mp hv))
      (Inv.init F includeLiveIns BB)
      (by intro g hg; simp [VState.init] at hg)
      (by intro pre I post hEq; simp [VState.init] at hEq)
  intro pre I post hEq o ho
  have hI : I ∈ u.Instructions := by rw [hEq]; simp
  rcases hrun.operand_classified I hI o ho with hc | hl | ⟨hi, _⟩
  · exact Or.inl hc
  · exact Or.inr (Or.inl hl)
  · exact Or.inr (Or.inr (hord pre I post hEq o ho hi))

/-- C1, witness: the scenario block of the specification has no cycle. -/
theorem C1_topological_order_witness :
    AcyclicRegion scenarioIR true 0 ∧
      ∃ u, traverse scenarioIR true 0 = some u ∧ TopologicallyOrdered scenarioIR u :=
  ⟨acyclicRegion_of_rank (fun v => v.val) (by decide),
    C1_topological_order scenarioIR true 0
      (acyclicRegion_of_rank (fun v => v.val) (by decide))⟩

/-! ## C2 -/

/-- C2: for every basic block and either setting of includeLiveIns, the traversal returns a
unit whose liveIns list contains no value twice, no void-typed value and no Constant. -/
theorem C2_liveIns_wellformed (F : FunctionIR n) (includeLiveIns : Bool) (BB : BlockId) :
    ∃ u, traverse F includeLiveIns BB = some u ∧ u.LiveIns.Nodup ∧
      (∀ v ∈ u.LiveIns, F.isVoid v = false) ∧ (∀ v ∈ u.LiveIns, F.isConstant v = false) := by
  obtain ⟨u, hu, hrun⟩ := traverse_run F includeLiveIns BB
  have hinv := hrun.inv (Inv.init F includeLiveIns BB)
  exact ⟨u, hu, hinv.liveIns_nodup, fun v hv => (hinv.liveIns_boundary v hv).1,
    fun v hv => hinv.visited_nonconst v (hinv.liveIns_visited v hv)⟩

/-! ## C3 -/

/-- C3: for every basic block and either setting of includeLiveIns, dumpBasicBlock returns;
it leaves the stream as it was when the block has no supported instruction, and otherwise
appends the record of the extracted unit followed by a newline, which changes the stream: a
record is emitted if and only if the block contains a supported instruction. -/
theorem C3_record_iff_supported (render : SynModule n → String) (escape : String → String)
    (F : FunctionIR n) (includeLiveIns : Bool) (OS : String) (BB : BlockId) :
    ∃ u out, traverse F includeLiveIns BB = some u ∧
      dumpBasicBlock render escape F includeLiveIns OS BB = some out ∧
      ((∃ I ∈ F.blockInsts BB, F.supported I = true) ↔ out ≠ OS) ∧
      ((∃ I ∈ F.blockInsts BB, F.supported I = true) →
        out = OS ++ toString u.Instructions.length ++ "," ++
          escape (render (buildModule F u.LiveIns u.Instructions)) ++ "\n") ∧
      ((¬ ∃ I ∈ F.blockInsts BB, F.supported I = true) → out = OS) := by
  obtain ⟨u, hu, hrun⟩ := traverse_run F includeLiveIns BB
  have hiff := hrun.nonempty_iff
  by_cases hne : u.Instructions = []
  · have hno : ¬ ∃ I ∈ F.blockInsts BB, F.supported I = true := fun h => hiff.mpr h hne
    refine ⟨u, OS, hu, by simp [dumpBasicBlock, hu, hne], ?_, ?_, ?_⟩
    · exact ⟨fun h => absurd h hno, fun h => absurd rfl h⟩
    · exact fun h => absurd h hno
    · exact fun _ => rfl
  · have hyes := hiff.mp hne
    refine ⟨u, OS ++ toString u.Instructions.length ++ "," ++
      escape (render (buildModule F u.LiveIns u.Instructions)) ++ "\n", hu,
      by simp [dumpBasicBlock, hu, hne, dumpBasicBlockDAG], ?_, ?_, ?_⟩
    · refine ⟨fun _ hEq => ?_, fun _ => hyes⟩
      have := congrArg String.length hEq
      simp only [String.length_append] at this
      have h1 : ("\n" : String).length = 1 := by decide
      omega
    · exact fun _ => rfl
    · exact fun h => absurd hyes h

/-! ## The builder -/

theorem digitChar_value (k : Nat) (h : k < 10) : (Nat.digitChar k).toNat - 48 = k := by
  interval_cases k <;> rfl

theorem digitsValue_toDigitsCore : ∀ (fuel k : Nat) (ds : List Char), k < fuel →
    digitsValue 0 (Nat.toDigitsCore 10 fuel k ds) = digitsValue k ds := by
  intro fuel
  induction fuel with
  | zero => intro k ds h; exact absurd h (Nat.not_lt_zero _)
  | succ fuel ih =>
    intro k ds h
    rw [Nat.toDigitsCore]
    by_cases h0 : k / 10 = 0
    · simp only [h0, if_true]
      have hk : k < 10 := by omega
      simp [digitsValue, Nat.mod_eq_of_lt hk, digitChar_value k hk]
    · simp only [h0, if_false]
      rw [ih (k / 10) _ (by omega)]
      simp only [digitsValue, List.foldl_cons,
        digitChar_value _ (Nat.mod_lt k (by norm_num : 10 > 0))]
      congr 1
      omega

/-- The decimal rendering of a number determines the number. -/
theorem repr_injective : Function.Injective Nat.repr := by
  intro a b h
  have ha := digitsValue_toDigitsCore (a + 1) a [] (Nat.lt_succ_self a)
  have hb := digitsValue_toDigitsCore (b + 1) b [] (Nat.lt_succ_self b)
  have h' : Nat.toDigits 10 a = Nat.toDigits 10 b := by
    have := congrArg String.data h
    simpa [Nat.repr] using this
  unfold Nat.toDigits at h'
  rw [h'] at ha
  rw [ha] at hb
  simpa [digitsValue] using hb

theorem useName_injective : Function.Injective useName := by
  intro a b h
  unfold useName at h
  have := congrArg String.data h
  simp only [String.data_append] at this
  exact repr_injective (String.ext (List.append_cancel_left this))

/-- The set `Alive` after the clone loop: the operands of the members that are
instructions. -/
theorem mem_foldl_cloneStep_Alive (F : FunctionIR n) (o : Fin n) :
    ∀ (l : List (Fin n)) (st : CloneState n),
      o ∈ (l.foldl (cloneStep F) st).Alive ↔
        o ∈ st.Alive ∨ ∃ J ∈ l, o ∈ F.operands J ∧ F.isInstruction o = true := by
  intro l
  induction l with
  | nil => intro st; simp
  | cons J rest ih =>
    intro st
    rw [List.foldl_cons, ih]
    simp only [cloneStep, List.mem_append, List.mem_filter, List.mem_cons, exists_eq_or_imp]
    tauto

/-- The sink block and the counter after the loop of lines 106-111. -/
theorem foldl_useStep (F : FunctionIR n) (VMap : ValueMap n) (Alive : List (Fin n)) :
    ∀ (l : List (Fin n)) (st : UseState n),
      (l.foldl (useStep F VMap Alive) st).SinkBB =
        st.SinkBB ++ ((l.filter (fun I => decide (I ∉ Alive))).enumFrom st.i).map
          (fun p => ⟨useName p.1, [VMap p.2]⟩) := by
  intro l
  induction l with
  | nil => intro st; simp
  | cons I rest ih =>
    intro st
    rw [List.foldl_cons, ih]
    by_cases hA : I ∈ Alive
    · simp [useStep, hA]
    · simp [useStep, hA, List.enumFrom]

theorem filter_not_alive (F : FunctionIR n) (LiveIns Instructions : List (Fin n))
    (hI : ∀ I ∈ Instructions, F.isInstruction I = true) :
    Instructions.filter (fun I => decide (I ∉ (cloneLoop F LiveIns Instructions).Alive)) =
      Instructions.filter (notOperandOfAny F Instructions) := by
  apply List.filter_congr
  intro I hmem
  have := mem_foldl_cloneStep_Alive F I Instructions ⟨argMap LiveIns, [], []⟩
  simp only [cloneLoop, notOperandOfAny]
  by_cases h : ∃ J ∈ Instructions, I ∈ F.operands J
  · have hA : I ∈ (List.foldl (cloneStep F) ⟨argMap LiveIns, [], []⟩ Instructions).Alive := by
      rw [this]
      obtain ⟨J, hJ, hJo⟩ := h
      exact Or.inr ⟨J, hJ, hJo, hI I hmem⟩
    obtain ⟨J, hJ, hJo⟩ := h
    simp only [hA, not_true_eq_false, decide_False, Bool.false_eq, Bool.not_eq_false',
      List.any_eq_true, decide_eq_true_eq]
    exact ⟨J, hJ, hJo⟩
  · have hA : I ∉ (List.foldl (cloneStep F) ⟨argMap LiveIns, [], []⟩ Instructions).Alive := by
      rw [this]
      rintro (h' | ⟨J, hJ, hJo, _⟩)
      · simp at h'
      · exact h ⟨J, hJ, hJo⟩
    simp only [hA, not_false_eq_true, decide_True, Bool.true_eq, Bool.not_eq_true',
      List.any_eq_false, decide_eq_true_eq]
    exact fun J hJ hJo => h ⟨J, hJ, hJo⟩

/-- The entry of `VMap` for a value the clone loop does not meet is left as it was. -/
theorem foldl_cloneStep_VMap_of_not_mem (F : FunctionIR n) (v : Fin n) :
    ∀ (l : List (Fin n)) (st : CloneState n), v ∉ l →
      (l.foldl (cloneStep F) st).VMap v = st.VMap v := by
  intro l
  induction l with
  | nil => intro st _; rfl
  | cons J rest ih =>
    intro st hv
    simp only [List.mem_cons, not_or] at hv
    rw [List.foldl_cons, ih _ hv.2]
    simp [cloneStep, ValueMap.set, hv.1]

theorem foldl_cloneStep_length (F : FunctionIR n) :
    ∀ (l : List (Fin n)) (st : CloneState n),
      (l.foldl (cloneStep F) st).EntryBB.length = st.EntryBB.length + l.length := by
  intro l
  induction l with
  | nil => intro st; rfl
  | cons J rest ih =>
    intro st
    rw [List.foldl_cons, ih]
    simp [cloneStep]
    omega

/-- The entry of `VMap` for a member of the list is the clone made at its last occurrence. -/
theorem foldl_cloneStep_VMap (F : FunctionIR n) (I : Fin n) :
    ∀ (l : List (Fin n)) (st : CloneState n) (k : Nat), l[k]? = some I →
      (∀ j, k < j → l[j]? ≠ some I) →
      (l.foldl (cloneStep F) st).VMap I = some (.inst (st.EntryBB.length + k)) := by
  intro l
  induction l with
  | nil => intro st k hk; simp at hk
  | cons J rest ih =>
    intro st k hk hlast
    rw [List.foldl_cons]
    cases k with
    | zero =>
      simp only [List.getElem?_cons_zero, Option.some.injEq] at hk
      subst hk
      have hnot : J ∉ rest := by
        intro hm
        obtain ⟨j, hj⟩ := List.getElem?_of_mem hm
        exact hlast (j + 1) (Nat.succ_pos j) (by simpa using hj)
      rw [foldl_cloneStep_VMap_of_not_mem F J rest _ hnot]
      simp [cloneStep, ValueMap.set]
    | succ k =>
      simp only [List.getElem?_cons_succ] at hk
      rw [ih (cloneStep F st J) k hk
        (fun j hj => by simpa using hlast (j + 1) (Nat.succ_lt_succ hj))]
      simp [cloneStep]
      omega

/-! ## C4 -/

/-- C4, counterexample: the traversal of the block `%0 = add i32 %0, 1` passes the list `[%0]`
to the builder; `%0` is an operand of no other member, so the claim announces the call
`use-0(clone(%0))`, but the sink block holds no call. -/
theorem C4_counterexample :
    traverse selfLoopIR true 0 = some ⟨[0], [], [0]⟩ ∧
    (buildModule selfLoopIR [] [0]).SinkBB = [] ∧
    preservationCalls (cloneLoop selfLoopIR [] [0]).VMap
        ([0].filter (notOperandOfOther selfLoopIR [0])) =
      [⟨"use-0", [some (.inst 0)]⟩] := by
  decide

/-- C4, as amended: for every list of instructions passed to the builder, the calls of the
sink block are exactly, in order, one call `use-k(VMap[I_k])` for k = 0, 1, 2, ... where
I_0, I_1, ... are the members, in list order, that are not an operand of any member of the
list (itself included); the callee names are pairwise distinct; and `VMap[I]` is the clone
made for the last occurrence of `I` in the list. -/
theorem C4_preservation_calls (F : FunctionIR n) (LiveIns Instructions : List (Fin n))
    (hI : ∀ I ∈ Instructions, F.isInstruction I = true) :
    (buildModule F LiveIns Instructions).SinkBB =
        preservationCalls (cloneLoop F LiveIns Instructions).VMap
          (Instructions.filter (notOperandOfAny F Instructions)) ∧
      ((buildModule F LiveIns Instructions).SinkBB.map (fun c => c.callee)).Nodup ∧
      ∀ (k : Nat) (I : Fin n), Instructions[k]? = some I →
        (∀ j, k < j → Instructions[j]? ≠ some I) →
        (cloneLoop F LiveIns Instructions).VMap I = some (.inst k) := by
  have hsink : (buildModule F LiveIns Instructions).SinkBB =
      preservationCalls (cloneLoop F LiveIns Instructions).VMap
        (Instructions.filter (notOperandOfAny F Instructions)) := by
    simp only [buildModule, useLoop, foldl_useStep, List.nil_append, preservationCalls,
      List.enum]
    rw [filter_not_alive F LiveIns Instructions hI]
  refine ⟨hsink, ?_, ?_⟩
  · rw [hsink]
    have : (preservationCalls (cloneLoop F LiveIns Instructions).VMap
        (Instructions.filter (notOperandOfAny F Instructions))).map (fun c => c.callee) =
        (List.range (Instructions.filter (notOperandOfAny F Instructions)).length).map
          useName := by
      simp only [preservationCalls, List.map_map]
      rw [← List.enum_map_fst, List.map_map]
      rfl
    rw [this]
    exact List.Nodup.map useName_injective (List.nodup_range _)
  · intro k I hk hlast
    have := foldl_cloneStep_VMap F I Instructions ⟨argMap LiveIns, [], []⟩ k hk hlast
    simpa [cloneLoop] using this

/-- C4, witness: the list `[add, mul, sub]` of the scenario block. -/
theorem C4_preservation_calls_witness :
    (∀ I ∈ [(3 : Fin 6), 4, 5], scenarioIR.isInstruction I = true) ∧
    (buildModule scenarioIR [0, 1] [3, 4, 5]).SinkBB =
        preservationCalls (cloneLoop scenarioIR [0, 1] [3, 4, 5]).VMap
          ([(3 : Fin 6), 4, 5].filter (notOperandOfAny scenarioIR [3, 4, 5])) ∧
      ((buildModule scenarioIR [0, 1] [3, 4, 5]).SinkBB.map (fun c => c.callee)).Nodup ∧
      ∀ (k : Nat) (I : Fin 6), [(3 : Fin 6), 4, 5][k]? = some I →
        (∀ j, k < j → [(3 : Fin 6), 4, 5][j]? ≠ some I) →
        (cloneLoop scenarioIR [0, 1] [3, 4, 5]).VMap I = some (.inst k) :=
  ⟨by decide, C4_preservation_calls scenarioIR [0, 1] [3, 4, 5] (by decide)⟩

/-! ## The clones and their operands -/

theorem mapArgs_of_not_mem (v : Fin n) :
    ∀ (l : List (Fin n)) (i : Nat) (m : ValueMap n), v ∉ l → mapArgs i l m v = m v := by
  intro l
  induction l with
  | nil => intro i m _; rfl
  | cons V rest ih =>
    intro i m hv
    simp only [List.mem_cons, not_or] at hv
    rw [mapArgs, ih _ _ hv.2]
    simp [ValueMap.set, hv.1]

/-- The entry of `VMap` for a live-in is the parameter of its last occurrence in the list. -/
theorem mapArgs_of_last (v : Fin n) :
    ∀ (l : List (Fin n)) (i : Nat) (m : ValueMap n) (k : Nat), l[k]? = some v →
      (∀ j, k < j → l[j]? ≠ some v) → mapArgs i l m v = some (.arg (i + k)) := by
  intro l
  induction l with
  | nil => intro i m k hk; simp at hk
  | cons V rest ih =>
    intro i m k hk hlast
    rw [mapArgs]
    cases k with
    | zero =>
      simp only [List.getElem?_cons_zero, Option.some.injEq] at hk
      subst hk
      have hnot : V ∉ rest := by
        intro hm
        obtain ⟨j, hj⟩ := List.getElem?_of_mem hm
        exact hlast (j + 1) (Nat.succ_pos j) (by simpa using hj)
      rw [mapArgs_of_not_mem V rest _ _ hnot]
      simp [ValueMap.set]
    | succ k =>
      simp only [List.getElem?_cons_succ] at hk
      rw [ih (i + 1) _ k hk (fun j hj => by simpa using hlast (j + 1) (Nat.succ_lt_succ hj))]
      congr 2
      omega

theorem nodup_last {α : Type} {l : List α} (h : l.Nodup) {k : Nat} {v : α}
    (hk : l[k]? = some v) : ∀ j, k < j → l[j]? ≠ some v := by
  intro j hkj hj
  have hjl : j < l.length := (List.getElem?_eq_some.mp hj).1
  exact List.nodup_iff_getElem?_ne_getElem?.mp h k j hkj hjl (hk.trans hj.symm)

theorem foldl_cloneStep_EntryBB_grow (F : FunctionIR n) :
    ∀ (l : List (Fin n)) (st : CloneState n),
      ∃ more, (l.foldl (cloneStep F) st).EntryBB = st.EntryBB ++ more := by
  intro l
  induction l with
  | nil => intro st; exact ⟨[], by simp⟩
  | cons J rest ih =>
    intro st
    obtain ⟨more, hm⟩ := ih (cloneStep F st J)
    rw [List.foldl_cons, hm]
    exact ⟨[⟨F.opcode J, (F.info J).ty,
      (F.operands J).map (remapOperand (st.VMap.set J (.inst st.EntryBB.length)))⟩] ++ more,
      by simp [cloneStep]⟩

/-- The `k`-th clone: opcode and type of the `k`-th member, and its operands remapped through
`VMap` as it is once the first `k + 1` members are cloned. -/
theorem foldl_cloneStep_EntryBB (F : FunctionIR n) :
    ∀ (l : List (Fin n)) (st : CloneState n) (k : Nat) (I : Fin n), l[k]? = some I →
      (l.foldl (cloneStep F) st).EntryBB[st.EntryBB.length + k]? =
        some ⟨F.opcode I, (F.info I).ty,
          (F.operands I).map (remapOperand ((l.take (k + 1)).foldl (cloneStep F) st).VMap)⟩ := by
  intro l
  induction l with
  | nil => intro st k I hk; simp at hk
  | cons J rest ih =>
    intro st k I hk
    rw [List.foldl_cons]
    cases k with
    | zero =>
      simp only [List.getElem?_cons_zero, Option.some.injEq] at hk
      subst hk
      obtain ⟨more, hm⟩ := foldl_cloneStep_EntryBB_grow F rest (cloneStep F st J)
      rw [hm]
      simp only [cloneStep, Nat.add_zero, List.append_assoc]
      rw [List.getElem?_append_right (Nat.le_refl _)]
      simp [cloneStep]
    | succ k =>
      simp only [List.getElem?_cons_succ] at hk
      have := ih (cloneStep F st J) k I hk
      simp only [List.take_succ_cons, List.foldl_cons]
      rw [← this]
      congr 1
      simp [cloneStep]
      omega

/-- The builder applied to lists that are duplicate-free, disjoint, free of constants and
ordered as `TopologicallyOrdered` requires yields a faithful and closed function. -/
theorem faithful_of_ordered (F : FunctionIR n) (LiveIns Instructions : List (Fin n))
    (hLn : LiveIns.Nodup) (hIn : Instructions.Nodup)
    (hdisj : ∀ v ∈ LiveIns, v ∉ Instructions)
    (hLc : ∀ v ∈ LiveIns, F.isConstant v = false)
    (hIc : ∀ v ∈ Instructions, F.isConstant v = false)
    (hord : TopologicallyOrdered F ⟨Instructions, LiveIns, []⟩) :
    FaithfulAndClosed F LiveIns Instructions := by
  refine ⟨?_, ?_, ?_⟩
  · simp [buildModule, cloneLoop, foldl_cloneStep_length]
  · intro k I hk
    have hE := foldl_cloneStep_EntryBB F Instructions ⟨argMap LiveIns, [], []⟩ k I hk
    simp only [List.length_nil, Nat.zero_add] at hE
    refine ⟨_, hE, rfl, ?_⟩
    simp only
    rw [List.forall₂_map_right_iff, List.forall₂_same]
    intro o ho
    have hkl : k < Instructions.length := (List.getElem?_eq_some.mp hk).1
    have hIk : Instructions[k] = I := (List.getElem?_eq_some.mp hk).2
    have hsplit : Instructions = Instructions.take k ++ I :: Instructions.drop (k + 1) := by
      rw [← hIk, List.getElem_cons_drop, List.take_append_drop]
    rcases hord (Instructions.take k) I (Instructions.drop (k + 1)) hsplit o ho with
      hc | hl | hp
    · left
      refine ⟨hc, ?_⟩
      have h1 : o ∉ Instructions.take (k + 1) := fun hm => by
        have := hIc o (List.mem_of_mem_take hm)
        rw [hc] at this; cases this
      have h2 : o ∉ LiveIns := fun hm => by
        have := hLc o hm
        rw [hc] at this; cases this
      simp [remapOperand, foldl_cloneStep_VMap_of_not_mem F o _ _ h1, argMap,
        mapArgs_of_not_mem o LiveIns _ _ h2]
    · right; left
      obtain ⟨i, hi⟩ := List.getElem?_of_mem hl
      refine ⟨i, hi, ?_⟩
      have h1 : o ∉ Instructions.take (k + 1) :=
        fun hm => hdisj o hl (List.mem_of_mem_take hm)
      simp [remapOperand, foldl_cloneStep_VMap_of_not_mem F o _ _ h1, argMap,
        mapArgs_of_last o LiveIns 0 _ i hi (nodup_last hLn hi)]
    · right; right
      obtain ⟨m, hm⟩ := List.getElem?_of_mem hp
      have hmk : m < k := by
        have := (List.getElem?_eq_some.mp hm).1
        simp only [List.length_take] at this
        omega
      have hm' : Instructions[m]? = some o := by
        rw [← hm, List.getElem?_take_of_lt hmk]
      have hm1 : (Instructions.take (k + 1))[m]? = some o := by
        rw [List.getElem?_take_of_lt (by omega), hm']
      refine ⟨m, hm', ?_⟩
      have hnd : (Instructions.take (k + 1)).Nodup :=
        List.Nodup.sublist (List.take_sublist _ _) hIn
      have := foldl_cloneStep_VMap F o (Instructions.take (k + 1)) ⟨argMap LiveIns, [], []⟩ m
        hm1 (nodup_last hnd hm1)
      simp only [List.length_nil, Nat.zero_add] at this
      simp [remapOperand, this]
  · intro c hc a ha
    have hsink : (buildModule F LiveIns Instructions).SinkBB =
        ((Instructions.filter
          (fun I => decide (I ∉ (cloneLoop F LiveIns Instructions).Alive))).enumFrom 0).map
          (fun p => ⟨useName p.1, [(cloneLoop F LiveIns Instructions).VMap p.2]⟩) := by
      simp [buildModule, useLoop, foldl_useStep]
    rw [hsink] at hc
    obtain ⟨p, hp, rfl⟩ := List.mem_map.mp hc
    simp only [List.mem_singleton] at ha
    subst ha
    have hpI : p.2 ∈ Instructions := by
      have h2 : p.2 ∈ Instructions.filter
          (fun I => decide (I ∉ (cloneLoop F LiveIns Instructions).Alive)) := by
        have hsnd := List.mem_map_of_mem Prod.snd hp
        rwa [List.enumFrom_map_snd] at hsnd
      exact List.mem_of_mem_filter h2
    obtain ⟨m, hm⟩ := List.getElem?_of_mem hpI
    refine ⟨m, (List.getElem?_eq_some.mp hm).1, ?_⟩
    have := foldl_cloneStep_VMap F p.2 Instructions ⟨argMap LiveIns, [], []⟩ m hm
      (nodup_last hIn hm)
    simpa [cloneLoop] using this

theorem internal_isInstruction {F : FunctionIR n} {inc : Bool} {BB : BlockId} {v : Fin n}
    (h : F.internal inc BB v = true) : F.isInstruction v = true := by
  unfold FunctionIR.internal at h
  unfold FunctionIR.isInstruction
  cases hk : (F.info v).kind <;> simp_all

/-- A rank that decreases along the operand edges of the DAG between different values rules
out the cycles of two or more instructions. -/
theorem noProperCycle_of_rank {F : FunctionIR n} {inc : Bool} {BB : BlockId}
    (rank : Fin n → Nat)
    (h : ∀ a : Fin n, F.internal inc BB a = true → ∀ b ∈ F.operands a, a ≠ b →
      rank b < rank a) :
    NoProperCycle F inc BB := by
  have key : ∀ a b, Relation.TransGen (ProperEdge F inc BB) a b → rank b < rank a := by
    intro a b hab
    induction hab with
    | single e => exact h _ e.1.1 _ e.1.2 e.2
    | tail _ e ih => exact lt_trans (h _ e.1.1 _ e.1.2 e.2) ih
  intro v _ hv
  exact lt_irrefl _ (key v v hv)

/-- When no value of `Instructions` lies on a cycle of two or more instructions, a run keeps
every internal operand of a member of `Instructions` before it, unless it is the member itself,
provided every pending value reaches the values of the list. -/
theorem Run.ordered_or_self {F : FunctionIR n} {inc : Bool} {BB : BlockId}
    {ops : List (Fin n)} {s s' : VState n} (h : Run F inc BB ops s s') :
    (∀ v ∈ s'.Instructions, ¬ Relation.TransGen (ProperEdge F inc BB) v v) →
    Inv F inc BB s →
    (∀ g ∈ s.Visited, g ∉ s.Instructions → F.internal inc BB g = true →
      ∀ o ∈ ops, Relation.ReflTransGen (ProperEdge F inc BB) g o) →
    InternalOperandsNotLater F inc BB s → InternalOperandsNotLater F inc BB s' := by
  induction h with
  | nil => exact fun _ _ _ h => h
  | skip _ _ ih =>
    intro hacyc hs hp ho
    exact ih hacyc hs
      (fun g hg hn hi o hmem => hp g hg hn hi o (List.mem_cons_of_mem _ hmem)) ho
  | @boundary V os s s' hc hv hb _ ih =>
    intro hacyc hs hp ho
    refine ih hacyc (hs.boundary_step hc hv hb) ?_ ?_
    · intro g hg hn hi o hmem
      simp only [VState.boundary_Visited, VState.mark_Visited, List.mem_cons] at hg
      rcases hg with rfl | hg
      · rw [hb] at hi; cases hi
      · exact hp g hg (by simpa using hn) hi o (List.mem_cons_of_mem _ hmem)
    · intro pre I post hEq
      exact ho pre I post (by simpa using hEq)
  | @internal V os s s1 s' hc hv hi hops hrest ih1 ih2 =>
    intro hacyc hs hp ho
    have hVacyc : ¬ Relation.TransGen (ProperEdge F inc BB) V V :=
      hacyc V (hrest.instructions_subset (by simp))
    have hstep : ∀ g, Relation.ReflTransGen (ProperEdge F inc BB) g V →
        ∀ o ∈ F.operands V, Relation.ReflTransGen (ProperEdge F inc BB) g o := by
      intro g hgV o hmem
      by_cases hVo : V = o
      · exact hVo ▸ hgV
      · exact Relation.ReflTransGen.tail hgV ⟨⟨hi, hmem⟩, hVo⟩
    have hord1 : InternalOperandsNotLater F inc BB s1 := by
      refine ih1 (fun v hv => hacyc v (hrest.instructions_subset (by simp [hv])))
        (hs.mark_step hc hi) ?_ ?_
      · intro g hg hn hgi o hmem
        simp only [VState.mark_Visited, List.mem_cons] at hg
        rcases hg with rfl | hg
        · exact hstep g Relation.ReflTransGen.refl o hmem
        · exact hstep g (hp g hg (by simpa using hn) hgi V (List.mem_cons_self _ _)) o hmem
      · intro pre I post hEq
        exact ho pre I post (by simpa using hEq)
    have hinv2 : Inv F inc BB (s1.push V) :=
      (Run.internal hc hv hi hops (Run.nil _)).inv hs
    refine ih2 hacyc hinv2 ?_ ?_
    · intro g hg hn hgi o hmem
      simp only [VState.push_Visited] at hg
      simp only [VState.push_Instructions, List.mem_append, List.mem_singleton, not_or] at hn
      have hg' := hops.no_new_pending g hg hgi hn.1
      simp only [VState.mark_Visited, List.mem_cons] at hg'
      rcases hg' with rfl | hg'
      · exact absurd rfl hn.2
      · exact hp g hg' (fun hm => hn.1 (hops.instructions_subset (by simpa using hm))) hgi o
          (List.mem_cons_of_mem _ hmem)
    · intro pre I post hEq
      simp only [VState.push_Instructions] at hEq
      rcases append_singleton_eq_append_cons hEq with ⟨_, hpre, hI⟩ | ⟨post', _, hl⟩
      · subst hpre; subst hI
        intro o hmem hoi
        by_cases hself : o = I
        · exact Or.inr hself
        left
        by_contra hn
        have hov : o ∈ s1.Visited := by
          rcases hops.ops_done o hmem with h | h
          · rw [internal_not_constant hoi] at h; cases h
          · exact h
        have hg' := hops.no_new_pending o hov hoi hn
        simp only [VState.mark_Visited, List.mem_cons] at hg'
        rcases hg' with h | hg'
        · exact hself h
        · have hreach := hp o hg'
            (fun hm => hn (hops.instructions_subset (by simpa using hm))) hoi I
            (List.mem_cons_self _ _)
          exact hVacyc (Relation.TransGen.head' ⟨⟨hi, hmem⟩, fun h => hself h.symm⟩ hreach)
      · exact hord1 pre I post' hl

/-- The argument of every call of the sink block is the clone of a member of the list. -/
theorem sink_args_are_clones (F : FunctionIR n) (LiveIns Instructions : List (Fin n))
    (hIn : Instructions.Nodup) :
    ∀ c ∈ (buildModule F LiveIns Instructions).SinkBB, ∀ a ∈ c.args,
      ∃ m, m < Instructions.length ∧ a = some (.inst m) := by
  intro c hc a ha
  have hsink : (buildModule F LiveIns Instructions).SinkBB =
      ((Instructions.filter
        (fun I => decide (I ∉ (cloneLoop F LiveIns Instructions).Alive))).enumFrom 0).map
        (fun p => ⟨useName p.1, [(cloneLoop F LiveIns Instructions).VMap p.2]⟩) := by
    simp [buildModule, useLoop, foldl_useStep]
  rw [hsink] at hc
  obtain ⟨p, hp, rfl⟩ := List.mem_map.mp hc
  simp only [List.mem_singleton] at ha
  subst ha
  have hpI : p.2 ∈ Instructions := by
    have h2 : p.2 ∈ Instructions.filter
        (fun I => decide (I ∉ (cloneLoop F LiveIns Instructions).Alive)) := by
      have hsnd := List.mem_map_of_mem Prod.snd hp
      rwa [List.enumFrom_map_snd] at hsnd
    exact List.mem_of_mem_filter h2
  obtain ⟨m, hm⟩ := List.getElem?_of_mem hpI
  refine ⟨m, (List.getElem?_eq_some.mp hm).1, ?_⟩
  have := foldl_cloneStep_VMap F p.2 Instructions ⟨argMap LiveIns, [], []⟩ m hm
    (nodup_last hIn hm)
  simpa [cloneLoop] using this

/-- The builder applied to lists that are duplicate-free, disjoint, free of constants and in
which no operand of a member is a later member yields a faithful and closed function. -/
theorem faithful_of_not_later (F : FunctionIR n) (LiveIns Instructions : List (Fin n))
    (hLn : LiveIns.Nodup) (hIn : Instructions.Nodup)
    (hdisj : ∀ v ∈ LiveIns, v ∉ Instructions)
    (hLc : ∀ v ∈ LiveIns, F.isConstant v = false)
    (hIc : ∀ v ∈ Instructions, F.isConstant v = false)
    (hord : OperandsNotLater F ⟨Instructions, LiveIns, []⟩) :
    FaithfulAndClosed F LiveIns Instructions := by
  refine ⟨?_, ?_, ?_⟩
  · simp [buildModule, cloneLoop, foldl_cloneStep_length]
  · intro k I hk
    have hE := foldl_cloneStep_EntryBB F Instructions ⟨argMap LiveIns, [], []⟩ k I hk
    simp only [List.length_nil, Nat.zero_add] at hE
    refine ⟨_, hE, rfl, ?_⟩
    simp only
    rw [List.forall₂_map_right_iff, List.forall₂_same]
    intro o ho
    have hkl : k < Instructions.length := (List.getElem?_eq_some.mp hk).1
    have hIk : Instructions[k] = I := (List.getElem?_eq_some.mp hk).2
    have hsplit : Instructions = Instructions.take k ++ I :: Instructions.drop (k + 1) := by
      rw [← hIk, List.getElem_cons_drop, List.take_append_drop]
    have hclone : ∀ m, m ≤ k → Instructions[m]? = some o →
        remapOperand ((Instructions.take (k + 1)).foldl (cloneStep F)
          ⟨argMap LiveIns, [], []⟩).VMap o = .inst m := by
      intro m hmk hm'
      have hm1 : (Instructions.take (k + 1))[m]? = some o := by
        rw [List.getElem?_take_of_lt (by omega), hm']
      have hnd : (Instructions.take (k + 1)).Nodup :=
        List.Nodup.sublist (List.take_sublist _ _) hIn
      have := foldl_cloneStep_VMap F o (Instructions.take (k + 1)) ⟨argMap LiveIns, [], []⟩ m
        hm1 (nodup_last hnd hm1)
      simp only [List.length_nil, Nat.zero_add] at this
      simp [remapOperand, this]
    rcases hord (Instructions.take k) I (Instructions.drop (k + 1)) hsplit o ho with
      hc | hl | hp | hself
    · left
      refine ⟨hc, ?_⟩
      have h1 : o ∉ Instructions.take (k + 1) := fun hm => by
        have := hIc o (List.mem_of_mem_take hm)
        rw [hc] at this; cases this
      have h2 : o ∉ LiveIns := fun hm => by
        have := hLc o hm
        rw [hc] at this; cases this
      simp [remapOperand, foldl_cloneStep_VMap_of_not_mem F o _ _ h1, argMap,
        mapArgs_of_not_mem o LiveIns _ _ h2]
    · right; left
      obtain ⟨i, hi⟩ := List.getElem?_of_mem hl
      refine ⟨i, hi, ?_⟩
      have h1 : o ∉ Instructions.take (k + 1) :=
        fun hm => hdisj o hl (List.mem_of_mem_take hm)
      simp [remapOperand, foldl_cloneStep_VMap_of_not_mem F o _ _ h1, argMap,
        mapArgs_of_last o LiveIns 0 _ i hi (nodup_last hLn hi)]
    · right; right
      obtain ⟨m, hm⟩ := List.getElem?_of_mem hp
      have hmk : m < k := by
        have := (List.getElem?_eq_some.mp hm).1
        simp only [List.length_take] at this
        omega
      have hm' : Instructions[m]? = some o := by
        rw [← hm, List.getElem?_take_of_lt hmk]
      exact ⟨m, hm', hclone m (by omega) hm'⟩
    · right; right
      subst hself
      exact ⟨k, hk, hclone k (le_refl k) hk⟩
  · exact sink_args_are_clones F LiveIns Instructions hIn

/-! ## C5 -/

/-- C5, counterexample: on the two-instruction cycle the traversal yields the list `[%1, %0]`;
the first operand of the clone of `%1` is still the original `%0`, a value outside the
synthetic function, and not clone 1, the image of `%0`. -/
theorem C5_counterexample :
    traverse cycleIR true 0 = some ⟨[1, 0], [], [1, 0]⟩ ∧
    (buildModule cycleIR [] [1, 0]).EntryBB[0]? =
      some ⟨some .add, .integer 32, [.orig 0, .orig 2]⟩ ∧
    cycleIR.operands 1 = [0, 2] ∧ cycleIR.isConstant 0 = false ∧
    ¬ FaithfulAndClosed cycleIR [] [1, 0] := by
  refine ⟨by decide, by decide, by decide, by decide, ?_⟩
  rintro ⟨_, h, _⟩
  obtain ⟨c, hc, _, hops⟩ := h 0 1 (by decide)
  have hc' : (buildModule cycleIR [] [1, 0]).EntryBB[0]? =
      some ⟨some .add, .integer 32, [.orig 0, .orig 2]⟩ := by decide
  rw [hc'] at hc
  simp only [Option.some.injEq] at hc
  subst hc
  have hop : cycleIR.operands 1 = [0, 2] := by decide
  rw [hop] at hops
  simp only [List.forall₂_cons] at hops
  rcases hops.1 with ⟨hk, _⟩ | ⟨i, hi, _⟩ | ⟨m, _, hm⟩
  · revert hk; decide
  · simp at hi
  · cases hm

/-- C5, as amended: for every basic block in which no extracted instruction lies on an operand
cycle of two or more instructions (an instruction may be its own operand), the traversal
returns a unit and the synthetic function built from it is structurally faithful and closed:
the entry block holds one clone per member of orderedInternal, in list order and with the same
operation kind, the j-th operand of the k-th clone is the image of the j-th operand of the k-th
original under the map that sends liveIns[i] to parameter i, orderedInternal[m] to clone m and
each constant to itself, and the argument of every preservation call is a clone; so no operand
refers to a value outside the parameters and the body. -/
theorem C5_faithful_and_closed (F : FunctionIR n) (includeLiveIns : Bool) (BB : BlockId)
    (hacyc : NoProperCycle F includeLiveIns BB) :
    ∃ u, traverse F includeLiveIns BB = some u ∧
      FaithfulAndClosed F u.LiveIns u.Instructions := by
  obtain ⟨u, hu, hrun⟩ := traverse_run F includeLiveIns BB
  refine ⟨u, hu, ?_⟩
  have hinv := hrun.inv (Inv.init F includeLiveIns BB)
  have hord : InternalOperandsNotLater F includeLiveIns BB u :=
    hrun.ordered_or_self (fun v hv => hacyc v ((hrun.mem_iff_chain v).mp hv))
      (Inv.init F includeLiveIns BB)
      (by intro g hg; simp [VState.init] at hg)
      (by intro pre I post hEq; simp [VState.init] at hEq)
  apply faithful_of_not_later F u.LiveIns u.Instructions hinv.liveIns_nodup hinv.insts_nodup
  · intro v hv hm
    have := (hinv.liveIns_boundary v hv).2
    rw [hinv.insts_internal v hm] at this
    cases this
  · exact fun v hv => hinv.visited_nonconst v (hinv.liveIns_visited v hv)
  · exact fun v hv => hinv.visited_nonconst v (hinv.insts_visited v hv)
  · intro pre I post hEq o ho
    have hEq' : u.Instructions = pre ++ I :: post := hEq
    have hI : I ∈ u.Instructions := by rw [hEq']; simp
    rcases hrun.operand_classified I hI o ho with hc | hl | ⟨hi, _⟩
    · exact Or.inl hc
    · exact Or.inr (Or.inl hl)
    · exact Or.inr (Or.inr (hord pre I post hEq' o ho hi))

/-- C5, witness: the block `%0 = add i32 %0, 1`, whose instruction is its own operand. -/
theorem C5_faithful_and_closed_witness :
    NoProperCycle selfLoopIR true 0 ∧
      ∃ u, traverse selfLoopIR true 0 = some u ∧
        FaithfulAndClosed selfLoopIR u.LiveIns u.Instructions :=
  ⟨noProperCycle_of_rank (fun v => 1 - v.val) (by decide),
    C5_faithful_and_closed selfLoopIR true 0
      (noProperCycle_of_rank (fun v => 1 - v.val) (by decide))⟩

/-! ## C6 -/

/-- C6: for every block, the traversal returns a unit in which an instruction I is in
orderedInternal if and only if there is a chain I_0, ..., I_n = I in which I_0 is an
instruction of B, each I_(k+1) is an operand of I_k, and every I_k is supported and satisfies
(includeLiveIns or I_k belongs to B).  In particular every supported instruction of B is in
orderedInternal, every member of orderedInternal is supported, and the set extracted with
includeLiveIns = true contains the set extracted with any setting. -/
theorem C6_extracted_iff_chain (F : FunctionIR n) (includeLiveIns : Bool) (BB : BlockId) :
    ∃ u, traverse F includeLiveIns BB = some u ∧
      (∀ I, I ∈ u.Instructions ↔
        ∃ I0 rest, IsExtractionChain F includeLiveIns BB I0 rest I) ∧
      (∀ I ∈ F.blockInsts BB, F.supported I = true → I ∈ u.Instructions) ∧
      (∀ I ∈ u.Instructions, F.supported I = true) ∧
      (∃ ut, traverse F true BB = some ut ∧ u.Instructions ⊆ ut.Instructions) := by
  obtain ⟨u, hu, hrun⟩ := traverse_run F includeLiveIns BB
  obtain ⟨ut, hut, hrunt⟩ := traverse_run F true BB
  refine ⟨u, hu, hrun.mem_iff_chain, ?_, ?_, ut, hut, ?_⟩
  · exact fun I hI hs =>
      hrun.roots_extracted I hI (block_supported_internal includeLiveIns hI hs)
  · exact fun I hI =>
      internal_supported ((hrun.inv (Inv.init F includeLiveIns BB)).insts_internal I hI)
  · intro I hI
    obtain ⟨I0, rest, h0, hch, hlast, hall⟩ := (hrun.mem_iff_chain I).mp hI
    exact (hrunt.mem_iff_chain I).mpr
      ⟨I0, rest, h0, hch, hlast, fun v hv => ⟨(hall v hv).1, Or.inl rfl⟩⟩

/-! ## C7 -/

/-- Every live-in a run adds is a boundary value of the list or an operand of a member of
`Instructions`. -/
theorem Run.liveIn_origin {F : FunctionIR n} {inc : Bool} {BB : BlockId}
    {ops : List (Fin n)} {s s' : VState n} (h : Run F inc BB ops s s') :
    ∀ v ∈ s'.LiveIns, v ∈ s.LiveIns ∨ (v ∈ ops ∧ F.internal inc BB v = false) ∨
      ∃ I ∈ s'.Instructions, v ∈ F.operands I := by
  induction h with
  | nil => exact fun v hv => Or.inl hv
  | skip _ _ ih =>
    intro v hv
    rcases ih v hv with h | ⟨h, hb⟩ | h
    · exact Or.inl h
    · exact Or.inr (Or.inl ⟨List.mem_cons_of_mem _ h, hb⟩)
    · exact Or.inr (Or.inr h)
  | @boundary V os s s' _ _ hb _ ih =>
    intro v hv
    rcases ih v hv with h | ⟨h, hb'⟩ | h
    · rw [VState.boundary_LiveIns] at h
      split at h
      · exact Or.inl h
      · rcases List.mem_append.mp h with h | h
        · exact Or.inl h
        · simp only [List.mem_singleton] at h
          subst h
          exact Or.inr (Or.inl ⟨List.mem_cons_self _ _, hb⟩)
    · exact Or.inr (Or.inl ⟨List.mem_cons_of_mem _ h, hb'⟩)
    · exact Or.inr (Or.inr h)
  | @internal V os s s1 s' _ _ _ _ hrest ih1 ih2 =>
    intro v hv
    rcases ih2 v hv with h | ⟨h, hb'⟩ | h
    · rcases ih1 v (by simpa using h) with h1 | ⟨h1, _⟩ | ⟨I, hI, hIo⟩
      · exact Or.inl (by simpa using h1)
      · exact Or.inr (Or.inr ⟨V, hrest.instructions_subset (by simp), h1⟩)
      · exact Or.inr (Or.inr ⟨I, hrest.instructions_subset (by simp [hI]), hIo⟩)
    · exact Or.inr (Or.inl ⟨List.mem_cons_of_mem _ h, hb'⟩)
    · exact Or.inr (Or.inr h)

/-- C7, counterexample: in the block `%v = load i32, ptr %p`, `%a = add i32 1, 1` the load is
a live-in, and it is an operand of no extracted instruction. -/
theorem C7_counterexample :
    traverse loadIR true 0 = some ⟨[3], [2], [3, 2]⟩ ∧
      ¬ ∃ I ∈ [(3 : Fin 4)], (2 : Fin 4) ∈ loadIR.operands I := by
  decide

/-- C7, as amended: for every block the traversal returns a unit in which every value of
liveIns is an operand of at least one instruction of orderedInternal, or is an unsupported
instruction of the block itself. -/
theorem C7_liveIns_consumed (F : FunctionIR n) (includeLiveIns : Bool) (BB : BlockId) :
    ∃ u, traverse F includeLiveIns BB = some u ∧
      ∀ V ∈ u.LiveIns, (∃ I ∈ u.Instructions, V ∈ F.operands I) ∨
        (V ∈ F.blockInsts BB ∧ F.supported V = false) := by
  obtain ⟨u, hu, hrun⟩ := traverse_run F includeLiveIns BB
  refine ⟨u, hu, fun V hV => ?_⟩
  rcases hrun.liveIn_origin V hV with h | ⟨hm, hb⟩ | h
  · simp [VState.init] at h
  · right
    refine ⟨hm, ?_⟩
    by_contra hs
    have := block_supported_internal includeLiveIns hm (by simpa using hs)
    rw [hb] at this
    cases this
  · exact Or.inl h

/-! ## C8 -/

/-- C8, counterexample: in `crossIR` block 0 is the block of the scenario and `%x`, `%y` are
defined outside it, but `%x` is an `add` of block 1; with includeLiveIns = true (the default)
it joins the DAG, so that liveIns = [%p, %y], orderedInternal = [%x, add, mul, sub] and the
record starts with `4,`. -/
theorem C8_counterexample :
    crossIR.blockInsts 0 = [4, 5, 6] ∧
    (crossIR.info 4).kind = .instruction .add 0 [3, 1] ∧
    (crossIR.info 5).kind = .instruction .mul 0 [4, 4] ∧
    (crossIR.info 6).kind = .instruction .sub 0 [5, 2] ∧
    crossIR.isConstant 2 = true ∧
    crossIR.isConstant 3 = false ∧ crossIR.isConstant 1 = false ∧
    crossIR.inBlock 0 3 = false ∧ crossIR.inBlock 0 1 = false ∧
    traverse crossIR true 0 = some ⟨[3, 4, 5, 6], [0, 1], [6, 5, 1, 0, 3, 4]⟩ ∧
    dumpBasicBlock (fun _ => "") id crossIR true "" 0 = some "4,\n" := by
  decide

/-- C8, as amended: for every block consisting of `%a = add %x, %y`, `%b = mul %a, %a`,
`%c = sub %b, 1` with %x and %y distinct non-constant values defined outside the block that
cannot join the DAG (includeLiveIns is false, or the value is not a supported instruction), the
traversal yields liveIns = [%x, %y] and orderedInternal = [add, mul, sub], and the emitted
record starts with `3,`. -/
theorem C8_scenario (render : SynModule n → String) (escape : String → String)
    (F : FunctionIR n) (includeLiveIns : Bool) (OS : String) (BB : BlockId)
    (x y one a b c : Fin n)
    (hblock : F.blockInsts BB = [a, b, c])
    (ha : (F.info a).kind = .instruction .add BB [x, y])
    (hb : (F.info b).kind = .instruction .mul BB [a, a])
    (hc : (F.info c).kind = .instruction .sub BB [b, one])
    (hone : F.isConstant one = true) (hxy : x ≠ y)
    (hx : F.isConstant x = false) (hy : F.isConstant y = false)
    (hxout : F.inBlock BB x = false) (hyout : F.inBlock BB y = false)
    (hxb : includeLiveIns = false ∨ F.supported x = false)
    (hyb : includeLiveIns = false ∨ F.supported y = false) :
    ∃ u, traverse F includeLiveIns BB = some u ∧ u.LiveIns = [x, y] ∧
      u.Instructions = [a, b, c] ∧
      dumpBasicBlock render escape F includeLiveIns OS BB =
        some (OS ++ "3," ++ escape (render (buildModule F [x, y] [a, b, c])) ++ "\n") := by
  have hxi : F.internal includeLiveIns BB x = false := by
    rw [← Bool.not_eq_true, internal_iff]
    rintro ⟨hs, hi | hi⟩
    · rcases hxb with h | h
      · rw [h] at hi; cases hi
      · rw [h] at hs; cases hs
    · rw [hxout] at hi; cases hi
  have hyi : F.internal includeLiveIns BB y = false := by
    rw [← Bool.not_eq_true, internal_iff]
    rintro ⟨hs, hi | hi⟩
    · rcases hyb with h | h
      · rw [h] at hi; cases hi
      · rw [h] at hs; cases hs
    · rw [hyout] at hi; cases hi
  have hai : F.internal includeLiveIns BB a = true := by
    simp [FunctionIR.internal, ha, isSupported, Opcode.isBinaryOperator]
  have hbi : F.internal includeLiveIns BB b = true := by
    simp [FunctionIR.internal, hb, isSupported, Opcode.isBinaryOperator]
  have hci : F.internal includeLiveIns BB c = true := by
    simp [FunctionIR.internal, hc, isSupported, Opcode.isBinaryOperator]
  have hopa : F.operands a = [x, y] := by simp [FunctionIR.operands, ha, ValueKind.operands]
  have hopb : F.operands b = [a, a] := by simp [FunctionIR.operands, hb, ValueKind.operands]
  have hopc : F.operands c = [b, one] := by simp [FunctionIR.operands, hc, ValueKind.operands]
  have hxv : F.isVoid x = false := operand_not_void F (v := a) (by simp [hopa])
  have hyv : F.isVoid y = false := operand_not_void F (v := a) (by simp [hopa])
  have hab : a ≠ b := fun h => by
    rw [h, hb] at ha
    cases ha
  have hac : a ≠ c := fun h => by
    rw [h, hc] at ha
    cases ha
  have hbc : b ≠ c := fun h => by
    rw [h, hc] at hb
    cases hb
  have hne : ∀ {v w : Fin n}, F.internal includeLiveIns BB v = false →
      F.internal includeLiveIns BB w = true → v ≠ w := fun hv hw h => by
    rw [h, hw] at hv; cases hv
  have hxa := hne hxi hai
  have hxb' := hne hxi hbi
  have hxc := hne hxi hci
  have hya := hne hyi hai
  have hyb' := hne hyi hbi
  have hyc := hne hyi hci
  have hrun : Run F includeLiveIns BB [a, b, c] VState.init
      ⟨[a, b, c], [x, y], [c, b, y, x, a]⟩ := by
    refine @Run.internal n F includeLiveIns BB a [b, c] VState.init ⟨[], [x, y], [y, x, a]⟩ _
      (internal_not_constant hai) (by simp [VState.init]) hai ?_ ?_
    · rw [hopa]
      refine Run.boundary hx (by simp [VState.init, hxa]) hxi ?_
      have hs : ((VState.init.mark a).mark x).boundary F x = ⟨[], [x], [x, a]⟩ := by
        simp [VState.boundary, hxv, VState.mark, VState.init]
      rw [hs]
      refine Run.boundary hy (by simp [hya, Ne.symm hxy]) hyi ?_
      have hs2 : ((⟨[], [x], [x, a]⟩ : VState n).mark y).boundary F y =
          ⟨[], [x, y], [y, x, a]⟩ := by
        simp [VState.boundary, hyv, VState.mark]
      rw [hs2]
      exact Run.nil _
    · refine @Run.internal n F includeLiveIns BB b [c] _ ⟨[a], [x, y], [b, y, x, a]⟩ _
        (internal_not_constant hbi)
        (by simp [VState.push, Ne.symm hyb', Ne.symm hxb', Ne.symm hab]) hbi ?_ ?_
      · rw [hopb]
        exact Run.skip (Or.inr (by simp [VState.mark, VState.push]))
          (Run.skip (Or.inr (by simp [VState.mark, VState.push])) (Run.nil _))
      · refine @Run.internal n F includeLiveIns BB c [] _ ⟨[a, b], [x, y], [c, b, y, x, a]⟩ _
          (internal_not_constant hci)
          (by simp [VState.push, Ne.symm hyc, Ne.symm hxc, Ne.symm hac, Ne.symm hbc]) hci ?_
          (Run.nil _)
        rw [hopc]
        exact Run.skip (Or.inr (by simp [VState.mark, VState.push]))
          (Run.skip (Or.inl hone) (Run.nil _))
  have htr : traverse F includeLiveIns BB = some ⟨[a, b, c], [x, y], [c, b, y, x, a]⟩ :=
    traverse_eq_of_run (by rw [hblock]; exact hrun)
  refine ⟨_, htr, rfl, rfl, ?_⟩
  have h3 : OS ++ toString 3 ++ "," = OS ++ "3," := by
    rw [String.append_assoc]
    rfl
  simp only [dumpBasicBlock, htr, Option.map_some', List.isEmpty_cons, Bool.false_eq_true,
    if_false, dumpBasicBlockDAG, List.length_cons, List.length_nil]
  rw [← h3]

/-- C8, witness: the scenario block, where `%x` and `%y` are function arguments. -/
theorem C8_scenario_witness :
    ∃ u, traverse scenarioIR true 0 = some u ∧ u.LiveIns = [0, 1] ∧
      u.Instructions = [3, 4, 5] ∧
      dumpBasicBlock (fun _ => "") id scenarioIR true "" 0 =
        some ("" ++ "3," ++ id ((fun _ => "") (buildModule scenarioIR [0, 1] [3, 4, 5])) ++
          "\n") :=
  C8_scenario (fun _ => "") id scenarioIR true "" 0 0 1 2 3 4 5 (by decide) (by decide)
    (by decide) (by decide) (by decide) (by decide) (by decide) (by decide) (by decide)
    (by decide) (by decide) (by decide)

/-! ## C9 -/

/-- C9: when includeLiveIns is false, the traversal of a block B returns a unit in which every
instruction V of another block that is an operand of a member of orderedInternal is in liveIns
and not in orderedInternal, whatever its operation kind, and every member of orderedInternal
belongs to B. -/
theorem C9_cross_block_boundary (F : FunctionIR n) (BB : BlockId) :
    ∃ u, traverse F false BB = some u ∧
      (∀ I ∈ u.Instructions, ∀ V ∈ F.operands I, F.isInstruction V = true →
        F.inBlock BB V = false → V ∈ u.LiveIns ∧ V ∉ u.Instructions) ∧
      (∀ I ∈ u.Instructions, F.inBlock BB I = true) := by
  obtain ⟨u, hu, hrun⟩ := traverse_run F false BB
  have hinv := hrun.inv (Inv.init F false BB)
  have hscope : ∀ I ∈ u.Instructions, F.inBlock BB I = true := by
    intro I hI
    rcases internal_scope (hinv.insts_internal I hI) with h | h
    · cases h
    · exact h
  refine ⟨u, hu, ?_, hscope⟩
  intro I hI V hV hinst hout
  have hnot : V ∉ u.Instructions := fun hm => by
    rw [hscope V hm] at hout; cases hout
  refine ⟨?_, hnot⟩
  rcases hrun.operand_classified I hI V hV with hc | hl | ⟨_, hm⟩
  · exfalso
    unfold FunctionIR.isConstant at hc
    unfold FunctionIR.isInstruction at hinst
    cases hk : (F.info V).kind <;> simp_all
  · exact hl
  · exact absurd hm hnot

/-- C9, witness: in `crossIR` the instruction `%x = add %p, %p` of block 1 is an operand of the
extracted `%a` of block 0, and it is a live-in of block 0 although its kind is supported. -/
theorem C9_cross_block_boundary_witness :
    ∃ u, traverse crossIR false 0 = some u ∧ (4 : Fin 7) ∈ u.Instructions ∧
      (3 : Fin 7) ∈ crossIR.operands 4 ∧ crossIR.isInstruction 3 = true ∧
      crossIR.supported 3 = true ∧ crossIR.inBlock 0 3 = false ∧
      (3 : Fin 7) ∈ u.LiveIns ∧ (3 : Fin 7) ∉ u.Instructions := by
  obtain ⟨u, hu, h, _⟩ := C9_cross_block_boundary crossIR 0
  have hu' : traverse crossIR false 0 = some ⟨[4, 5, 6], [3, 1], [6, 5, 1, 3, 4]⟩ := by
    decide
  have hEq : u = ⟨[4, 5, 6], [3, 1], [6, 5, 1, 3, 4]⟩ := by
    rw [hu'] at hu
    exact (Option.some.inj hu).symm
  subst hEq
  exact ⟨_, hu', by decide, by decide, by decide, by decide, by decide,
    h 4 (by decide) 3 (by decide) (by decide) (by decide)⟩

/-! ## C10 -/

theorem getOrInsertFunction_head (fns : List FuncDecl) (name : String) (retTy : Ty)
    (paramTys : List Ty) (f : FuncDecl) (h : fns.head? = some f) :
    (getOrInsertFunction fns name retTy paramTys).head? = some f := by
  unfold getOrInsertFunction
  split
  · exact h
  · cases fns with
    | nil => simp at h
    | cons g rest => simpa using h

theorem foldl_useStep_head (F : FunctionIR n) (VMap : ValueMap n) (Alive : List (Fin n))
    (f : FuncDecl) :
    ∀ (l : List (Fin n)) (st : UseState n), st.functions.head? = some f →
      (l.foldl (useStep F VMap Alive) st).functions.head? = some f := by
  intro l
  induction l with
  | nil => exact fun st h => h
  | cons I rest ih =>
    intro st h
    rw [List.foldl_cons]
    apply ih
    unfold useStep
    split
    · exact h
    · exact getOrInsertFunction_head _ _ _ _ f h

/-- The signature of `wrapper` and the entries of `VMap` after lines 82-83, for any two lists:
a live-in is mapped to the parameter of its last occurrence in the list. -/
theorem wrapper_signature (F : FunctionIR n) (LiveIns Instructions : List (Fin n)) :
    (buildModule F LiveIns Instructions).functions.head? =
        some ⟨"wrapper", Ty.void, paramTypes F LiveIns⟩ ∧
      (paramTypes F LiveIns).length = LiveIns.length ∧
      (∀ (i : Nat) (V : Fin n), LiveIns[i]? = some V →
        (paramTypes F LiveIns)[i]? = some (F.info V).ty) ∧
      (∀ (i : Nat) (V : Fin n), LiveIns[i]? = some V →
        (∀ j, i < j → LiveIns[j]? ≠ some V) → argMap LiveIns V = some (.arg i)) := by
  refine ⟨?_, by simp [paramTypes], ?_, ?_⟩
  · simp only [buildModule, useLoop]
    apply foldl_useStep_head
    simp [getOrInsertFunction]
  · intro i V hi
    simp [paramTypes, List.getElem?_map, hi]
  · intro i V hi hlast
    have := mapArgs_of_last V LiveIns 0 (fun _ => none) i hi hlast
    simpa [argMap] using this

/-- C10: for every live-in list passed to the builder, that is for the list of every unit the
traversal produces (line 152 is the only call of the builder), the first function of the module
is `wrapper`, with return type void and exactly liveIns.size() parameters, the i-th parameter's
type being the type of liveIns[i]; and liveIns[i] is mapped to parameter i, after the loop of
lines 82-83 and still when the builder prints the module. -/
theorem C10_wrapper_signature (F : FunctionIR n) (includeLiveIns : Bool) (BB : BlockId) :
    ∃ u, traverse F includeLiveIns BB = some u ∧
      ∃ params, (buildModule F u.LiveIns u.Instructions).functions.head? =
          some ⟨"wrapper", Ty.void, params⟩ ∧
        params.length = u.LiveIns.length ∧
        ∀ (i : Nat) (V : Fin n), u.LiveIns[i]? = some V →
          params[i]? = some (F.info V).ty ∧
          argMap u.LiveIns V = some (.arg i) ∧
          (cloneLoop F u.LiveIns u.Instructions).VMap V = some (.arg i) := by
  obtain ⟨u, hu, hrun⟩ := traverse_run F includeLiveIns BB
  have hinv := hrun.inv (Inv.init F includeLiveIns BB)
  obtain ⟨hhead, hlen, hty, hmap⟩ := wrapper_signature F u.LiveIns u.Instructions
  refine ⟨u, hu, paramTypes F u.LiveIns, hhead, hlen, fun i V hi => ?_⟩
  have harg := hmap i V hi (nodup_last hinv.liveIns_nodup hi)
  refine ⟨hty i V hi, harg, ?_⟩
  have hVL : V ∈ u.LiveIns := List.mem_iff_getElem?.mpr ⟨i, hi⟩
  have hVI : V ∉ u.Instructions := fun hm => by
    have := (hinv.liveIns_boundary V hVL).2
    rw [hinv.insts_internal V hm] at this
    cases this
  rw [cloneLoop, foldl_cloneStep_VMap_of_not_mem F V _ _ hVI]
  exact harg

/-! ## C11 -/

theorem hasSupported_iff (F : FunctionIR n) (BB : BlockId) :
    hasSupported F BB = true ↔ ∃ I ∈ F.blockInsts BB, F.supported I = true := by
  simp [hasSupported, List.any_eq_true]

/-- What `dumpBasicBlock(OS, BB)` leaves in the stream. -/
theorem dumpBasicBlock_eq (render : SynModule n → String) (escape : String → String)
    (F : FunctionIR n) (inc : Bool) (OS : String) (BB : BlockId) :
    ∃ u, traverse F inc BB = some u ∧
      dumpBasicBlock render escape F inc OS BB =
        some (if hasSupported F BB then OS ++ recordLine render escape F u else OS) := by
  obtain ⟨u, hu, hrun⟩ := traverse_run F inc BB
  refine ⟨u, hu, ?_⟩
  have hiff := hrun.nonempty_iff
  by_cases hs : hasSupported F BB = true
  · have hne : u.Instructions ≠ [] := hiff.mpr ((hasSupported_iff F BB).mp hs)
    simp [dumpBasicBlock, hu, hne, hs, dumpBasicBlockDAG, recordLine, String.append_assoc]
  · have he : u.Instructions = [] := by
      by_contra hne
      exact hs ((hasSupported_iff F BB).mpr (hiff.mp hne))
    simp [dumpBasicBlock, hu, he, hs]

theorem concatAll_cons (x : String) (l : List String) :
    concatAll (x :: l) = x ++ concatAll l := rfl

theorem foldlM_dumpBasicBlock (render : SynModule n → String) (escape : String → String)
    (F : FunctionIR n) (inc : Bool) :
    ∀ (blocks : List BlockId) (acc : String),
      ∃ units, List.Forall₂ (fun BB u => traverse F inc BB = some u)
          (blocks.filter (hasSupported F)) units ∧
        blocks.foldlM (fun OS BB => dumpBasicBlock render escape F inc OS BB) acc =
          some (acc ++ concatAll (units.map (recordLine render escape F))) := by
  intro blocks
  induction blocks with
  | nil => intro acc; exact ⟨[], by simp, by simp [concatAll]⟩
  | cons BB rest ih =>
    intro acc
    obtain ⟨u, hu, hd⟩ := dumpBasicBlock_eq render escape F inc acc BB
    by_cases hs : hasSupported F BB = true
    · obtain ⟨units, hf, hfold⟩ := ih (acc ++ recordLine render escape F u)
      refine ⟨u :: units, by simpa [List.filter_cons, hs] using ⟨hu, hf⟩, ?_⟩
      rw [List.foldlM_cons, hd]
      simp only [hs, if_true, List.map_cons, concatAll_cons]
      rw [← String.append_assoc]
      exact hfold
    · obtain ⟨units, hf, hfold⟩ := ih acc
      refine ⟨units, by simpa [List.filter_cons, hs] using hf, ?_⟩
      rw [List.foldlM_cons, hd]
      simp only [hs, Bool.false_eq_true, if_false]
      exact hfold

/-- C11: for every function, given by the list of its blocks in iteration order, the buffer
accumulated by runOnFunction is the concatenation, over the blocks that contain at least one
supported instruction and in that order, of the record `<count>,<escaped-text>` followed by
one newline, where the count is the decimal rendering of orderedInternal.size() of the unit
the traversal of that block produces and the text is the escaped rendering of the synthetic
container built from that unit. -/
theorem C11_function_buffer (render : SynModule n → String) (escape : String → String)
    (F : FunctionIR n) (includeLiveIns : Bool) (blocks : List BlockId) :
    ∃ units, List.Forall₂ (fun BB u => traverse F includeLiveIns BB = some u)
        (blocks.filter (fun BB => (F.blockInsts BB).any (fun I => F.supported I))) units ∧
      functionBuffer render escape F includeLiveIns blocks =
        some (concatAll (units.map (fun u =>
          toString u.Instructions.length ++ "," ++
            escape (render (buildModule F u.LiveIns u.Instructions)) ++ "\n"))) := by
  obtain ⟨units, hf, hfold⟩ := foldlM_dumpBasicBlock render escape F includeLiveIns blocks ""
  refine ⟨units, hf, ?_⟩
  rw [functionBuffer, hfold, String.empty_append]
  rfl

/-! ## C12, C13, C14: the sink -/

theorem functionBuffer_total (render : SynModule n → String) (escape : String → String)
    (F : FunctionIR n) (inc : Bool) (blocks : List BlockId) :
    ∃ buf, functionBuffer render escape F inc blocks = some buf := by
  obtain ⟨units, _, hfold⟩ := foldlM_dumpBasicBlock render escape F inc blocks ""
  exact ⟨_, hfold⟩

theorem lock_path_ne (P : String) : P ≠ P ++ ".lock" := by
  intro h
  have hl := congrArg String.length h
  rw [String.length_append] at hl
  have h5 : (".lock" : String).length = 5 := by decide
  omega

/-- C12: for every function and buffer, runOnFunction returns false and leaves the contents of
the output file unchanged when the output path is empty, when the lock file opens but the
exclusive lock cannot be acquired, and when the lock is acquired but the output file cannot be
opened for append. -/
theorem C12_no_write (render : SynModule n → String) (escape : String → String)
    (F : FunctionIR n) (includeLiveIns : Bool) (blocks : List BlockId) (sys : SysOutcomes)
    (OutputFile : String) (fs : FileSystem)
    (hcase : OutputFile = "" ∨
      (sys.lockFileOpens = true ∧ sys.flockSucceeds = false) ∨
      (sys.lockFileOpens = true ∧ sys.flockSucceeds = true ∧ sys.outputOpens = false)) :
    (∀ Buffer : String, ∃ fs', flushBuffer sys OutputFile Buffer fs =
        Outcome.returned false fs' ∧ fs'.contents OutputFile = fs.contents OutputFile) ∧
    ∃ fs', runOnFunction render escape F includeLiveIns blocks sys OutputFile fs =
        some (Outcome.returned false fs') ∧
      fs'.contents OutputFile = fs.contents OutputFile := by
  have key : ∀ Buffer : String, ∃ fs', flushBuffer sys OutputFile Buffer fs =
      Outcome.returned false fs' ∧ fs'.contents OutputFile = fs.contents OutputFile := by
    intro Buffer
    by_cases hP : OutputFile = ""
    · exact ⟨fs, by simp [flushBuffer, hP], rfl⟩
    · rcases hcase with h | ⟨h1, h2⟩ | ⟨h1, h2, h3⟩
      · exact absurd h hP
      · refine ⟨fs.openTrunc (OutputFile ++ ".lock"), ?_, ?_⟩
        · simp [flushBuffer, hP, LockFile.create, h1, h2, LockFile.destroy]
        · simp [FileSystem.openTrunc, lock_path_ne OutputFile]
      · refine ⟨{ fs.openTrunc (OutputFile ++ ".lock") with flockHeld := false }, ?_, ?_⟩
        · simp [flushBuffer, hP, LockFile.create, h1, h2, h3, LockFile.destroy]
        · simp [FileSystem.openTrunc, lock_path_ne OutputFile]
  refine ⟨key, ?_⟩
  obtain ⟨buf, hbuf⟩ := functionBuffer_total render escape F includeLiveIns blocks
  obtain ⟨fs', h1, h2⟩ := key buf
  exact ⟨fs', by simp [runOnFunction, hbuf, h1], h2⟩

/-- C12, witness: the lock of `out.lock` cannot be acquired. -/
theorem C12_no_write_witness :
    (∀ Buffer : String, ∃ fs', flushBuffer ⟨true, false, true⟩ "out" Buffer emptyFS =
        Outcome.returned false fs' ∧ fs'.contents "out" = emptyFS.contents "out") ∧
    ∃ fs', runOnFunction (fun _ => "") id scenarioIR true [0] ⟨true, false, true⟩ "out"
        emptyFS = some (Outcome.returned false fs') ∧
      fs'.contents "out" = emptyFS.contents "out" :=
  C12_no_write (fun _ => "") id scenarioIR true [0] ⟨true, false, true⟩ "out" emptyFS
    (Or.inr (Or.inl ⟨rfl, rfl⟩))

/-- C13: when the output path is non-empty, the lock file opens and is locked, and the output
file opens for append, runOnFunction returns false and leaves the output file with its previous
contents followed by exactly the buffer of the function (a file that did not exist holds the
buffer), and the lock is released. -/
theorem C13_append (render : SynModule n → String) (escape : String → String)
    (F : FunctionIR n) (includeLiveIns : Bool) (blocks : List BlockId) (sys : SysOutcomes)
    (OutputFile : String) (fs : FileSystem)
    (hP : OutputFile ≠ "") (hopen : sys.lockFileOpens = true)
    (hlock : sys.flockSucceeds = true) (hout : sys.outputOpens = true) :
    ∃ buf fs', functionBuffer render escape F includeLiveIns blocks = some buf ∧
      runOnFunction render escape F includeLiveIns blocks sys OutputFile fs =
        some (Outcome.returned false fs') ∧
      (∀ old, fs.contents OutputFile = some old →
        fs'.contents OutputFile = some (old ++ buf)) ∧
      (fs.contents OutputFile = none → fs'.contents OutputFile = some buf) ∧
      fs'.flockHeld = false := by
  obtain ⟨buf, hbuf⟩ := functionBuffer_total render escape F includeLiveIns blocks
  refine ⟨buf, { (fs.openTrunc (OutputFile ++ ".lock")).append OutputFile buf with
    flockHeld := false }, hbuf, ?_, ?_, ?_, rfl⟩
  · simp [runOnFunction, hbuf, flushBuffer, hP, LockFile.create, hopen, hlock, hout,
      LockFile.destroy, FileSystem.append, FileSystem.openTrunc]
  · intro old hold
    simp [FileSystem.append, FileSystem.openTrunc, lock_path_ne OutputFile, hold]
  · intro hnone
    simp [FileSystem.append, FileSystem.openTrunc, lock_path_ne OutputFile, hnone]

/-- C13, witness: the scenario function appended to a file `out` that holds `old`. -/
theorem C13_append_witness :
    ∃ buf fs', functionBuffer (fun _ => "") id scenarioIR true [0] = some buf ∧
      runOnFunction (fun _ => "") id scenarioIR true [0] ⟨true, true, true⟩ "out"
        ⟨fun p => if p = "out" then some "old" else none, false⟩ =
        some (Outcome.returned false fs') ∧
      (∀ old, (if "out" = "out" then some "old" else none) = some old →
        fs'.contents "out" = some (old ++ buf)) ∧
      ((if "out" = "out" then some "old" else none) = (none : Option String) →
        fs'.contents "out" = some buf) ∧
      fs'.flockHeld = false :=
  C13_append (fun _ => "") id scenarioIR true [0] ⟨true, true, true⟩ "out"
    ⟨fun p => if p = "out" then some "old" else none, false⟩ (by decide) rfl rfl rfl

/-- C14: if the output path is non-empty and the lock file cannot be opened, the process is
aborted: nothing is returned to the host and the file system, the output file included, is as
it was; whereas when the lock file opens and the lock cannot be acquired the call returns
normally. -/
theorem C14_abort (render : SynModule n → String) (escape : String → String)
    (F : FunctionIR n) (includeLiveIns : Bool) (blocks : List BlockId) (sys : SysOutcomes)
    (OutputFile : String) (fs : FileSystem)
    (hP : OutputFile ≠ "") (hopen : sys.lockFileOpens = false) :
    runOnFunction render escape F includeLiveIns blocks sys OutputFile fs =
        some (Outcome.aborted fs) ∧
      ∀ sys2 : SysOutcomes, sys2.lockFileOpens = true → sys2.flockSucceeds = false →
        ∃ fs', runOnFunction render escape F includeLiveIns blocks sys2 OutputFile fs =
          some (Outcome.returned false fs') := by
  obtain ⟨buf, hbuf⟩ := functionBuffer_total render escape F includeLiveIns blocks
  refine ⟨?_, ?_⟩
  · simp [runOnFunction, hbuf, flushBuffer, hP, LockFile.create, hopen]
  · intro sys2 h1 h2
    exact ⟨fs.openTrunc (OutputFile ++ ".lock"),
      by simp [runOnFunction, hbuf, flushBuffer, hP, LockFile.create, h1, h2,
        LockFile.destroy]⟩

/-- C14, witness: the lock file `out.lock` cannot be opened. -/
theorem C14_abort_witness :
    runOnFunction (fun _ => "") id scenarioIR true [0] ⟨false, true, true⟩ "out" emptyFS =
        some (Outcome.aborted emptyFS) ∧
      ∀ sys2 : SysOutcomes, sys2.lockFileOpens = true → sys2.flockSucceeds = false →
        ∃ fs', runOnFunction (fun _ => "") id scenarioIR true [0] sys2 "out" emptyFS =
          some (Outcome.returned false fs') :=
  C14_abort (fun _ => "") id scenarioIR true [0] ⟨false, true, true⟩ "out" emptyFS
    (by decide) rfl

/-! ## C17 -/

/-- C17: for every block, the traversal returns a unit in which orderedInternal contains no
instruction twice, liveIns contains no value twice, and no value is a member of both: every
value is classified once, however often it is reached. -/
theorem C17_classified_once (F : FunctionIR n) (includeLiveIns : Bool) (BB : BlockId) :
    ∃ u, traverse F includeLiveIns BB = some u ∧ u.Instructions.Nodup ∧ u.LiveIns.Nodup ∧
      ∀ v, ¬ (v ∈ u.Instructions ∧ v ∈ u.LiveIns) := by
  obtain ⟨u, hu, hrun⟩ := traverse_run F includeLiveIns BB
  have hinv := hrun.inv (Inv.init F includeLiveIns BB)
  refine ⟨u, hu, hinv.insts_nodup, hinv.liveIns_nodup, ?_⟩
  rintro v ⟨hI, hL⟩
  have h1 := hinv.insts_internal v hI
  have h2 := (hinv.liveIns_boundary v hL).2
  rw [h1] at h2
  cases h2

/-! ## C18 -/

theorem Run.visited_nodup {F : FunctionIR n} {inc : Bool} {BB : BlockId}
    {ops : List (Fin n)} {s s' : VState n} (h : Run F inc BB ops s s') :
    s.Visited.Nodup → s'.Visited.Nodup := by
  induction h with
  | nil => exact id
  | skip _ _ ih => exact ih
  | boundary _ hv _ _ ih =>
    intro hs
    exact ih (by simpa using ⟨hv, hs⟩)
  | internal _ hv _ _ _ ih1 ih2 =>
    intro hs
    exact ih2 (by simpa using ih1 (by simpa using ⟨hv, hs⟩))

theorem Run.nil_eq {F : FunctionIR n} {inc : Bool} {BB : BlockId} {s s' : VState n}
    (h : Run F inc BB [] s s') : s' = s := by
  cases h; rfl

theorem notVisited_lt (F : FunctionIR n) {s s' : VState n} {V : Fin n}
    (hc : F.isConstant V = false) (hv : V ∉ s.Visited) (hV : V ∈ s'.Visited)
    (hsub : s.Visited ⊆ s'.Visited) : notVisited F s' < notVisited F s := by
  unfold notVisited
  apply Finset.card_lt_card
  rw [Finset.ssubset_iff_of_subset]
  · exact ⟨V, by simp [hc, hv], by simp [hV]⟩
  · intro v hm
    simp only [Finset.mem_filter, Finset.mem_univ, true_and] at hm ⊢
    exact ⟨hm.1, fun h => hm.2 (hsub h)⟩

/-- A call of `Visit` that returns leaves the state as it was or shrinks the set of
not-yet-visited values. -/
theorem Run.single_progress {F : FunctionIR n} {inc : Bool} {BB : BlockId} {V : Fin n}
    {s s' : VState n} (h : Run F inc BB [V] s s') :
    s' = s ∨ notVisited F s' < notVisited F s := by
  have hsub := h.visited_subset
  cases h with
  | skip _ hr => exact Or.inl hr.nil_eq
  | boundary hc hv _ hr =>
    right
    have := hr.nil_eq
    subst this
    exact notVisited_lt F hc hv (by simp) hsub
  | internal hc hv _ hops hr =>
    right
    have := hr.nil_eq
    subst this
    exact notVisited_lt F hc hv (by simpa using hops.visited_subset (by simp)) hsub

theorem foldlM_singleton (F : FunctionIR n) (inc : Bool) (BB : BlockId) (fuel : Nat)
    (V : Fin n) (s : VState n) :
    [V].foldlM (fun st o => Visit F inc BB fuel o st) s = Visit F inc BB fuel V s := by
  simp [List.foldlM_cons]

/-- The counter of `VisitCount` grows by the number of values that enter `Visited`, and the
state is the one `Visit` computes. -/
theorem foldlM_VisitCount (F : FunctionIR n) (inc : Bool) (BB : BlockId) :
    ∀ (fuel : Nat) (ops : List (Fin n)) (s : VState n) (k : Nat) (s' : VState n),
      ops.foldlM (fun st o => Visit F inc BB fuel o st) s = some s' →
      ∃ d, s'.Visited.length = s.Visited.length + d ∧
        ops.foldlM (fun st o => VisitCount F inc BB fuel o st) (s, k) = some (s', k + d) := by
  intro fuel
  induction fuel with
  | zero =>
    intro ops s k s' h
    cases ops with
    | nil =>
      simp only [List.foldlM_nil, pure, Option.some.injEq] at h
      subst h
      exact ⟨0, rfl, rfl⟩
    | cons o os => simp [List.foldlM_cons, Visit] at h
  | succ fuel ih =>
    intro ops
    induction ops with
    | nil =>
      intro s k s' h
      simp only [List.foldlM_nil, pure, Option.some.injEq] at h
      subst h
      exact ⟨0, rfl, rfl⟩
    | cons V os ihos =>
      intro s k s' h
      rw [List.foldlM_cons] at h
      obtain ⟨m, hm, hrest⟩ := Option.bind_eq_some.mp h
      rw [Visit_succ] at hm
      rw [List.foldlM_cons, VisitCount]
      by_cases h1 : F.isConstant V = true
      · simp [h1] at hm
        subst hm
        obtain ⟨d, hd, hc⟩ := ihos s k s' hrest
        exact ⟨d, hd, by simpa [h1] using hc⟩
      by_cases h2 : V ∈ s.Visited
      · simp [h1, h2] at hm
        subst hm
        obtain ⟨d, hd, hc⟩ := ihos s k s' hrest
        exact ⟨d, hd, by simpa [h1, h2] using hc⟩
      by_cases h3 : F.internal inc BB V = true
      · simp [h1, h2, h3] at hm
        obtain ⟨s1, hs1, rfl⟩ := hm
        obtain ⟨d1, hd1, hc1⟩ := ih (F.operands V) (s.mark V) (k + 1) s1 hs1
        obtain ⟨d2, hd2, hc2⟩ := ihos (s1.push V) (k + 1 + d1) s' hrest
        refine ⟨1 + d1 + d2, ?_, ?_⟩
        · simp only [VState.push_Visited, VState.mark_Visited, List.length_cons] at hd1 hd2
          omega
        · simp only [h1, h2, h3, if_true, hc1, Option.map_some']
          simpa [Nat.add_assoc] using hc2
      · simp [h1, h2, h3] at hm
        subst hm
        obtain ⟨d2, hd2, hc2⟩ := ihos ((s.mark V).boundary F V) (k + 1) s' hrest
        refine ⟨1 + d2, ?_, ?_⟩
        · simp only [VState.boundary_Visited, VState.mark_Visited, List.length_cons] at hd2
          omega
        · simp only [h1, h2, h3]
          simpa [Nat.add_assoc] using hc2

/-- C18: with any nesting budget above the number of values, every call of Visit, from every
state and on every operand graph (no acyclicity is assumed), returns, with the same result as
under the budget the traversal uses, and it either leaves the state as it was (it returned at
once) or strictly shrinks the set of not-yet-visited non-constant values; the traversal of a
block returns as well, the number of its calls that did not return at once is the size of the
visited set, and this set has no duplicates, no constant, and at most as many members as there
are distinct non-constant values. -/
theorem C18_termination (F : FunctionIR n) (includeLiveIns : Bool) (BB : BlockId)
    (fuel : Nat) (hfuel : n < fuel) :
    (∀ (V : Fin n) (s : VState n), ∃ s', Visit F includeLiveIns BB fuel V s = some s' ∧
      Visit F includeLiveIns BB (n + 1) V s = some s' ∧
      (s' = s ∨ notVisited F s' < notVisited F s)) ∧
    ∃ u, traverse F includeLiveIns BB = some u ∧
      (F.blockInsts BB).foldlM (fun st I => Visit F includeLiveIns BB fuel I st)
        VState.init = some u ∧
      (F.blockInsts BB).foldlM (fun st I => VisitCount F includeLiveIns BB fuel I st)
        (VState.init, 0) = some (u, u.Visited.length) ∧
      u.Visited.Nodup ∧ (∀ v ∈ u.Visited, F.isConstant v = false) ∧
      u.Visited.length ≤ nonConstantCount F := by
  refine ⟨?_, ?_⟩
  · intro V s
    obtain ⟨s1, h1⟩ := foldlM_total F includeLiveIns BB fuel [V] s
      (lt_of_le_of_lt (unvisited_le F includeLiveIns BB s) hfuel)
    obtain ⟨s2, h2⟩ := foldlM_total F includeLiveIns BB (n + 1) [V] s
      (Nat.lt_succ_of_le (unvisited_le F includeLiveIns BB s))
    have r1 := run_of_foldlM F includeLiveIns BB _ _ _ _ h1
    have r2 := run_of_foldlM F includeLiveIns BB _ _ _ _ h2
    have hEq := r2.deterministic s1 r1
    subst hEq
    rw [foldlM_singleton] at h1 h2
    exact ⟨s2, h1, h2, r1.single_progress⟩
  · obtain ⟨u, hu, hrun⟩ := traverse_run F includeLiveIns BB
    obtain ⟨u', hu'⟩ := foldlM_total F includeLiveIns BB fuel (F.blockInsts BB) VState.init
      (lt_of_le_of_lt (unvisited_le F includeLiveIns BB _) hfuel)
    have hEq := (run_of_foldlM F includeLiveIns BB _ _ _ _ hu').deterministic u hrun
    subst hEq
    have hinv := hrun.inv (Inv.init F includeLiveIns BB)
    have hnd : u'.Visited.Nodup := hrun.visited_nodup (by simp [VState.init])
    have hcount : (F.blockInsts BB).foldlM
        (fun st I => VisitCount F includeLiveIns BB fuel I st) (VState.init, 0) =
        some (u', u'.Visited.length) := by
      obtain ⟨d, hd, hc⟩ := foldlM_VisitCount F includeLiveIns BB fuel _ _ 0 _ hu'
      have : u'.Visited.length = d := by simpa [VState.init] using hd
      rw [hc, this]
      simp
    refine ⟨u', hu, hu', hcount, hnd, hinv.visited_nonconst, ?_⟩
    unfold nonConstantCount
    rw [← List.toFinset_card_of_nodup hnd]
    apply Finset.card_le_card
    intro v hv
    simp only [List.mem_toFinset] at hv
    simp [hinv.visited_nonconst v hv]

/-- C18, witness: the two-instruction cycle, with a budget of ten. -/
theorem C18_termination_witness :
    (∀ (V : Fin 3) (s : VState 3), ∃ s', Visit cycleIR true 0 10 V s = some s' ∧
      Visit cycleIR true 0 (3 + 1) V s = some s' ∧
      (s' = s ∨ notVisited cycleIR s' < notVisited cycleIR s)) ∧
    ∃ u, traverse cycleIR true 0 = some u ∧
      (cycleIR.blockInsts 0).foldlM (fun st I => Visit cycleIR true 0 10 I st)
        VState.init = some u ∧
      (cycleIR.blockInsts 0).foldlM (fun st I => VisitCount cycleIR true 0 10 I st)
        (VState.init, 0) = some (u, u.Visited.length) ∧
      u.Visited.Nodup ∧ (∀ v ∈ u.Visited, cycleIR.isConstant v = false) ∧
      u.Visited.length ≤ nonConstantCount cycleIR :=
  C18_termination cycleIR true 0 10 (by decide)

/-! ## C19 -/

theorem blockInsts_nodup (F : FunctionIR n) (BB : BlockId) : (F.blockInsts BB).Nodup :=
  List.Nodup.filter _ (List.nodup_finRange n)

/-- Under `DefsPrecedeUses`, an operand of an instruction of the block that belongs to the
block is among the instructions before it. -/
theorem DefsPrecedeUses.mem_pre {F : FunctionIR n} {BB : BlockId}
    (hdef : DefsPrecedeUses F BB) {pre os : List (Fin n)} {V o : Fin n}
    (hEq : F.blockInsts BB = pre ++ V :: os) (ho : o ∈ F.operands V)
    (hb : F.inBlock BB o = true) : o ∈ pre := by
  have hV : V ∈ F.blockInsts BB := by rw [hEq]; simp
  have hlt := hdef V hV o ho hb
  have hnd := blockInsts_nodup F BB
  rw [hEq] at hlt hnd
  have hVpre : V ∉ pre := fun hm =>
    (List.nodup_append.mp hnd).2.2 hm (List.mem_cons_self _ _) 
  by_contra hopre
  rw [List.indexOf_append_of_not_mem hVpre, List.indexOf_append_of_not_mem hopre,
    List.indexOf_cons_self] at hlt
  omega

/-- A run over values that are constants, visited, or boundary values appends nothing to
`Instructions` and visits only such values. -/
theorem Run.no_push {F : FunctionIR n} {inc : Bool} {BB : BlockId}
    {ops : List (Fin n)} {s s' : VState n} (h : Run F inc BB ops s s') :
    (∀ o ∈ ops, F.isConstant o = true ∨ o ∈ s.Visited ∨ F.internal inc BB o = false) →
    s'.Instructions = s.Instructions ∧
      ∀ v ∈ s'.Visited, v ∈ s.Visited ∨ v ∈ ops := by
  induction h with
  | nil => exact fun _ => ⟨rfl, fun v hv => Or.inl hv⟩
  | skip _ _ ih =>
    intro hops
    obtain ⟨h1, h2⟩ := ih (fun o ho => hops o (List.mem_cons_of_mem _ ho))
    exact ⟨h1, fun v hv => (h2 v hv).imp id (List.mem_cons_of_mem _)⟩
  | @boundary V os s s' _ _ _ _ ih =>
    intro hops
    obtain ⟨h1, h2⟩ := ih (fun o ho => by
      rcases hops o (List.mem_cons_of_mem _ ho) with h | h | h
      · exact Or.inl h
      · exact Or.inr (Or.inl (by simp [h]))
      · exact Or.inr (Or.inr h))
    refine ⟨by simpa using h1, fun v hv => ?_⟩
    rcases h2 v hv with h | h
    · simp only [VState.boundary_Visited, VState.mark_Visited, List.mem_cons] at h
      rcases h with rfl | h
      · exact Or.inr (List.mem_cons_self _ _)
      · exact Or.inl h
    · exact Or.inr (List.mem_cons_of_mem _ h)
  | @internal V os s s1 s' hc hv hi _ _ _ _ =>
    intro hops
    rcases hops V (List.mem_cons_self _ _) with h | h | h
    · rw [hc] at h; cases h
    · exact absurd h hv
    · rw [hi] at h; cases h

/-- With includeLiveIns = false and definitions before uses, the loop over the block appends
the supported instructions in block order. -/
theorem Run.block_order {F : FunctionIR n} {BB : BlockId} (hdef : DefsPrecedeUses F BB)
    {ops : List (Fin n)} {s s' : VState n} (h : Run F false BB ops s s') :
    ∀ pre : List (Fin n), F.blockInsts BB = pre ++ ops →
      s.Instructions = pre.filter (fun I => F.supported I) →
      (∀ v ∈ pre, v ∈ s.Visited) →
      (∀ v ∈ s.Visited, F.inBlock BB v = true → v ∈ pre) →
      s'.Instructions = (pre ++ ops).filter (fun I => F.supported I) := by
  induction h with
  | nil => intro pre _ hI _ _; simpa using hI
  | @skip V os s s' hc _ _ =>
    intro pre hEq _ _ hvis
    exfalso
    have hV : V ∈ F.blockInsts BB := by rw [hEq]; simp
    have hVb := (mem_blockInsts F BB V).mp hV
    have hnd := blockInsts_nodup F BB
    rw [hEq] at hnd
    rcases hc with hc | hc
    · unfold FunctionIR.isConstant at hc
      unfold FunctionIR.inBlock at hVb
      cases hk : (F.info V).kind <;> simp_all
    · exact (List.nodup_append.mp hnd).2.2 (hvis V hc hVb) (List.mem_cons_self _ _) 
  | @boundary V os s s' _ _ hb _ ih =>
    intro pre hEq hI hpre hvis
    have hV : V ∈ F.blockInsts BB := by rw [hEq]; simp
    have hVb := (mem_blockInsts F BB V).mp hV
    have hVs : F.supported V = false := by
      by_contra hs
      have := block_supported_internal false hV (by simpa using hs)
      rw [hb] at this; cases this
    have := ih (pre ++ [V]) (by simp [hEq])
      (by simp [List.filter_append, hVs, hI])
      (by
        intro v hv
        rcases List.mem_append.mp hv with h | h
        · simp [hpre v h]
        · simp only [List.mem_singleton] at h; simp [h])
      (by
        intro v hv hvb
        simp only [VState.boundary_Visited, VState.mark_Visited, List.mem_cons] at hv
        rcases hv with rfl | h
        · simp
        · exact List.mem_append_left _ (hvis v h hvb))
    simpa using this
  | @internal V os s s1 s' _ _ hi hops _ _ ih2 =>
    intro pre hEq hI hpre hvis
    have hVs : F.supported V = true := internal_supported hi
    have hclass : ∀ o ∈ F.operands V, F.isConstant o = true ∨ o ∈ (s.mark V).Visited ∨
        F.internal false BB o = false := by
      intro o ho
      by_cases hob : F.inBlock BB o = true
      · exact Or.inr (Or.inl (by simp [hpre o (hdef.mem_pre hEq ho hob)]))
      · right; right
        by_contra hio
        rcases internal_scope (by simpa using hio : F.internal false BB o = true) with h | h
        · cases h
        · exact hob h
    obtain ⟨h1, h2⟩ := hops.no_push hclass
    have := ih2 (pre ++ [V]) (by simp [hEq])
      (by simp [List.filter_append, hVs, hI, h1])
      (by
        intro v hv
        have hsub : (s.mark V).Visited ⊆ s1.Visited := hops.visited_subset
        rcases List.mem_append.mp hv with h | h
        · exact hsub (by simp [hpre v h])
        · simp only [List.mem_singleton] at h
          exact hsub (by simp [h]))
      (by
        intro v hv hvb
        rcases h2 v (by simpa using hv) with h | h
        · simp only [VState.mark_Visited, List.mem_cons] at h
          rcases h with rfl | h
          · simp
          · exact List.mem_append_left _ (hvis v h hvb)
        · exact List.mem_append_left _ (hdef.mem_pre hEq h hvb))
    simpa using this

/-- C19: when includeLiveIns is false and every operand of an instruction of B that is itself
an instruction of B occurs earlier in B, the traversal returns a unit whose orderedInternal is
the subsequence of the supported instructions of B in block order; hence the count of the
record emitted for B is the number of supported instructions of B. -/
theorem C19_block_order (render : SynModule n → String) (escape : String → String)
    (F : FunctionIR n) (OS : String) (BB : BlockId) (hdef : DefsPrecedeUses F BB) :
    ∃ u, traverse F false BB = some u ∧
      u.Instructions = (F.blockInsts BB).filter (fun I => F.supported I) ∧
      u.Instructions.length = (F.blockInsts BB).countP (fun I => F.supported I) ∧
      ((∃ I ∈ F.blockInsts BB, F.supported I = true) →
        dumpBasicBlock render escape F false OS BB =
          some (OS ++ toString ((F.blockInsts BB).countP (fun I => F.supported I)) ++ "," ++
            escape (render (buildModule F u.LiveIns u.Instructions)) ++ "\n")) := by
  obtain ⟨u, hu, hrun⟩ := traverse_run F false BB
  have hI : u.Instructions = (F.blockInsts BB).filter (fun I => F.supported I) := by
    have := hrun.block_order hdef [] (by simp) (by simp [VState.init])
      (by simp) (by simp [VState.init])
    simpa using this
  have hlen : u.Instructions.length = (F.blockInsts BB).countP (fun I => F.supported I) := by
    rw [hI, List.countP_eq_length_filter]
  refine ⟨u, hu, hI, hlen, fun hex => ?_⟩
  have hne : u.Instructions ≠ [] := hrun.nonempty_iff.mpr hex
  simp [dumpBasicBlock, hu, hne, dumpBasicBlockDAG, hlen]

/-- C19, witness: the scenario block, where definitions precede uses. -/
theorem C19_block_order_witness :
    DefsPrecedeUses scenarioIR 0 ∧
    ∃ u, traverse scenarioIR false 0 = some u ∧
      u.Instructions = (scenarioIR.blockInsts 0).filter (fun I => scenarioIR.supported I) ∧
      u.Instructions.length =
        (scenarioIR.blockInsts 0).countP (fun I => scenarioIR.supported I) ∧
      ((∃ I ∈ scenarioIR.blockInsts 0, scenarioIR.supported I = true) →
        dumpBasicBlock (fun _ => "") id scenarioIR false "" 0 =
          some ("" ++ toString ((scenarioIR.blockInsts 0).countP
              (fun I => scenarioIR.supported I)) ++ "," ++
            id ((fun _ => "") (buildModule scenarioIR u.LiveIns u.Instructions)) ++ "\n")) :=
  ⟨by unfold DefsPrecedeUses; decide,
    C19_block_order (fun _ => "") id scenarioIR "" 0 (by unfold DefsPrecedeUses; decide)⟩

/-! ## C20 -/

/-- The calls of the sink block, for a list of instructions. -/
theorem sinkBB_eq (F : FunctionIR n) (LiveIns Instructions : List (Fin n))
    (hI : ∀ I ∈ Instructions, F.isInstruction I = true) :
    (buildModule F LiveIns Instructions).SinkBB =
      preservationCalls (cloneLoop F LiveIns Instructions).VMap
        (Instructions.filter (notOperandOfAny F Instructions)) := by
  simp only [buildModule, useLoop, foldl_useStep, List.nil_append, preservationCalls,
    List.enum]
  rw [filter_not_alive F LiveIns Instructions hI]

theorem getOrInsertFunction_subset (fns : List FuncDecl) (name : String) (retTy : Ty)
    (paramTys : List Ty) : fns ⊆ getOrInsertFunction fns name retTy paramTys := by
  unfold getOrInsertFunction
  split
  · exact List.Subset.refl _
  · exact List.subset_append_left _ _

theorem getOrInsertFunction_declared (fns : List FuncDecl) (name : String) (retTy : Ty)
    (paramTys : List Ty) :
    ∃ f ∈ getOrInsertFunction fns name retTy paramTys, f.name = name := by
  unfold getOrInsertFunction
  split
  · rename_i h
    obtain ⟨f, hf, hn⟩ := List.any_eq_true.mp h
    exact ⟨f, hf, by simpa using hn⟩
  · exact ⟨⟨name, retTy, paramTys⟩, by simp, rfl⟩

/-- The callee of every call of the sink block is a function of the module. -/
theorem foldl_useStep_declared (F : FunctionIR n) (VMap : ValueMap n) (Alive : List (Fin n)) :
    ∀ (l : List (Fin n)) (st : UseState n),
      (∀ c ∈ st.SinkBB, ∃ f ∈ st.functions, f.name = c.callee) →
      ∀ c ∈ (l.foldl (useStep F VMap Alive) st).SinkBB,
        ∃ f ∈ (l.foldl (useStep F VMap Alive) st).functions, f.name = c.callee := by
  intro l
  induction l with
  | nil => exact fun st h => h
  | cons I rest ih =>
    intro st h
    rw [List.foldl_cons]
    apply ih
    unfold useStep
    split
    · exact h
    · intro c hc
      simp only [List.mem_append, List.mem_singleton] at hc
      rcases hc with hc | rfl
      · obtain ⟨f, hf, hn⟩ := h c hc
        exact ⟨f, getOrInsertFunction_subset _ _ _ _ hf, hn⟩
      · exact getOrInsertFunction_declared _ _ _ _

/-- A function whose operand graph has no value reachable from itself has no extracted
instruction reachable from itself. -/
theorem operandAcyclic_region {F : FunctionIR n} (h : OperandAcyclic F) (inc : Bool)
    (BB : BlockId) : AcyclicRegion F inc BB := by
  intro v _ hcyc
  exact h v (Relation.TransGen.mono (fun a b hab => hab.2) hcyc)

/-- In a unit that is topologically ordered the last member of `Instructions` is an operand of
no member. -/
theorem last_not_operand {F : FunctionIR n} {inc : Bool} {BB : BlockId} {u : VState n}
    (hinv : Inv F inc BB u) (hord : TopologicallyOrdered F u) {pre : List (Fin n)}
    {L : Fin n} (hEq : u.Instructions = pre ++ [L]) :
    ∀ I ∈ u.Instructions, L ∉ F.operands I := by
  intro I hI hL
  have hLm : L ∈ u.Instructions := by rw [hEq]; simp
  obtain ⟨p, q, hsplit⟩ := List.append_of_mem hI
  rcases hord p I q hsplit L hL with hc | hl | hp
  · rw [hinv.visited_nonconst L (hinv.insts_visited L hLm)] at hc; cases hc
  · have := (hinv.liveIns_boundary L hl).2
    rw [hinv.insts_internal L hLm] at this; cases this
  · have hnd := hinv.insts_nodup
    rw [hsplit] at hnd
    have hLq : L ∈ I :: q := by
      have h2 : pre ++ [L] = p ++ I :: q := by rw [← hEq, hsplit]
      rcases append_singleton_eq_append_cons h2 with ⟨hq, _, hIL⟩ | ⟨q', hq, _⟩
      · simp [hIL]
      · rw [hq]; simp
    exact (List.nodup_append.mp hnd).2.2 hp hLq

/-- C20: for every block in which no extracted instruction is reachable from itself through
operand edges (in particular for every block whose operand graph has no instruction reachable
from itself, `operandAcyclic_region`), the traversal returns a unit such that, when it is not
empty (a synthetic body is emitted), its last instruction is not an operand of any member of
orderedInternal, the sink block holds at least one and at most orderedInternal.size()
preservation calls, the first of them calls `use-0`, and `use-0` is a function of the
module. -/
theorem C20_some_preservation_call (F : FunctionIR n) (includeLiveIns : Bool) (BB : BlockId)
    (hacyc : AcyclicRegion F includeLiveIns BB) :
    ∃ u, traverse F includeLiveIns BB = some u ∧
      (u.Instructions ≠ [] →
        (∀ L, u.Instructions.getLast? = some L → ∀ I ∈ u.Instructions, L ∉ F.operands I) ∧
        1 ≤ (buildModule F u.LiveIns u.Instructions).SinkBB.length ∧
        (buildModule F u.LiveIns u.Instructions).SinkBB.length ≤ u.Instructions.length ∧
        (∃ c, (buildModule F u.LiveIns u.Instructions).SinkBB.head? = some c ∧
          c.callee = "use-0") ∧
        ∃ f ∈ (buildModule F u.LiveIns u.Instructions).functions, f.name = "use-0") := by
  obtain ⟨u, hu, hrun⟩ := traverse_run F includeLiveIns BB
  refine ⟨u, hu, fun hne => ?_⟩
  have hinv := hrun.inv (Inv.init F includeLiveIns BB)
  have hord : TopologicallyOrdered F u := by
    have hio : InternalOperandsEarlier F includeLiveIns BB u :=
      hrun.ordered (fun v hv => hacyc v ((hrun.mem_iff_chain v).mp hv))
        (Inv.init F includeLiveIns BB)
        (by intro g hg; simp [VState.init] at hg)
        (by intro pre I post hEq; simp [VState.init] at hEq)
    intro pre I post hEq o ho
    have hI : I ∈ u.Instructions := by rw [hEq]; simp
    rcases hrun.operand_classified I hI o ho with hc | hl | ⟨hi, _⟩
    · exact Or.inl hc
    · exact Or.inr (Or.inl hl)
    · exact Or.inr (Or.inr (hio pre I post hEq o ho hi))
  obtain ⟨pre, L, hEq⟩ : ∃ pre L, u.Instructions = pre ++ [L] := by
    rcases List.eq_nil_or_concat u.Instructions with h | ⟨pre, L, h⟩
    · exact absurd h hne
    · exact ⟨pre, L, by simpa using h⟩
  have hlast := last_not_operand hinv hord hEq
  have hLm : L ∈ u.Instructions := by rw [hEq]; simp
  have hsink := sinkBB_eq F u.LiveIns u.Instructions
    (fun v hv => internal_isInstruction (hinv.insts_internal v hv))
  have hLdead : L ∈ u.Instructions.filter (notOperandOfAny F u.Instructions) := by
    rw [List.mem_filter]
    refine ⟨hLm, ?_⟩
    simp only [notOperandOfAny, Bool.not_eq_true', List.any_eq_false, decide_eq_true_eq]
    exact fun I hI => hlast I hI
  have hlen : (buildModule F u.LiveIns u.Instructions).SinkBB.length =
      (u.Instructions.filter (notOperandOfAny F u.Instructions)).length := by
    rw [hsink]; simp [preservationCalls]
  obtain ⟨d, ds, hd⟩ : ∃ d ds,
      u.Instructions.filter (notOperandOfAny F u.Instructions) = d :: ds := by
    cases hf : u.Instructions.filter (notOperandOfAny F u.Instructions) with
    | nil => rw [hf] at hLdead; cases hLdead
    | cons d ds => exact ⟨d, ds, rfl⟩
  have hhead : (buildModule F u.LiveIns u.Instructions).SinkBB.head? =
      some ⟨"use-0", [(cloneLoop F u.LiveIns u.Instructions).VMap d]⟩ := by
    rw [hsink, hd]
    simp only [preservationCalls, List.enum, List.enumFrom, List.map_cons, List.head?_cons]
    rfl
  refine ⟨?_, ?_, ?_, ⟨_, hhead, rfl⟩, ?_⟩
  · intro L' hL'
    have hL2 : u.Instructions.getLast? = some L := by
      rw [hEq]; simp
    rw [hL2] at hL'
    cases hL'
    exact hlast
  · rw [hlen, hd]; simp
  · rw [hlen]; exact List.length_filter_le _ _
  · have hdecl := foldl_useStep_declared F (cloneLoop F u.LiveIns u.Instructions).VMap
      (cloneLoop F u.LiveIns u.Instructions).Alive u.Instructions
      ⟨0, getOrInsertFunction [] "wrapper" Ty.void (paramTypes F u.LiveIns), []⟩
      (by simp)
    have hmem : (⟨"use-0", [(cloneLoop F u.LiveIns u.Instructions).VMap d]⟩ : CallInst n) ∈
        (buildModule F u.LiveIns u.Instructions).SinkBB := List.mem_of_mem_head? hhead
    exact hdecl _ hmem

/-- C20, witness: the scenario block, whose operand graph has no cycle. -/
theorem C20_some_preservation_call_witness :
    AcyclicRegion scenarioIR true 0 ∧
    ∃ u, traverse scenarioIR true 0 = some u ∧
      (u.Instructions ≠ [] →
        (∀ L, u.Instructions.getLast? = some L →
          ∀ I ∈ u.Instructions, L ∉ scenarioIR.operands I) ∧
        1 ≤ (buildModule scenarioIR u.LiveIns u.Instructions).SinkBB.length ∧
        (buildModule scenarioIR u.LiveIns u.Instructions).SinkBB.length ≤
          u.Instructions.length ∧
        (∃ c, (buildModule scenarioIR u.LiveIns u.Instructions).SinkBB.head? = some c ∧
          c.callee = "use-0") ∧
        ∃ f ∈ (buildModule scenarioIR u.LiveIns u.Instructions).functions,
          f.name = "use-0") :=
  ⟨operandAcyclic_region (operandAcyclic_of_rank (fun v => v.val) (by decide)) true 0,
    C20_some_preservation_call scenarioIR true 0
      (operandAcyclic_region (operandAcyclic_of_rank (fun v => v.val) (by decide)) true 0)⟩

/-! ## C15 -/

theorem digitChar_isDigit (k : Nat) (h : k < 10) : (Nat.digitChar k).isDigit = true := by
  interval_cases k <;> rfl

theorem toDigitsCore_isDigit : ∀ (fuel k : Nat) (ds : List Char),
    (∀ c ∈ ds, c.isDigit = true) → ∀ c ∈ Nat.toDigitsCore 10 fuel k ds, c.isDigit = true := by
  intro fuel
  induction fuel with
  | zero => intro k ds h c hc; exact h c (by simpa [Nat.toDigitsCore] using hc)
  | succ fuel ih =>
    intro k ds h c hc
    rw [Nat.toDigitsCore] at hc
    have hd : ∀ c ∈ Nat.digitChar (k % 10) :: ds, c.isDigit = true := by
      intro c hc
      rcases List.mem_cons.mp hc with rfl | hc
      · exact digitChar_isDigit _ (Nat.mod_lt k (by norm_num))
      · exact h c hc
    by_cases h0 : k / 10 = 0
    · simp only [h0, if_true] at hc
      exact hd c hc
    · simp only [h0, if_false] at hc
      exact ih _ _ hd c hc

/-- The decimal rendering of a number consists of digits. -/
theorem repr_isDigit (k : Nat) : ∀ c ∈ (toString k).data, c.isDigit = true := by
  intro c hc
  have : c ∈ Nat.toDigits 10 k := by simpa [toString, Nat.repr] using hc
  exact toDigitsCore_isDigit _ _ [] (by simp) c this

theorem hexDigit_safe (k : Nat) (h : k < 16) : hexDigit k ≠ '\n' ∧ hexDigit k ≠ '"' := by
  interval_cases k <;> decide

theorem hexStr_safe (width v : Nat) : ∀ c ∈ hexStr width v, c ≠ '\n' ∧ c ≠ '"' := by
  intro c hc
  simp only [hexStr, List.mem_map] at hc
  obtain ⟨i, _, rfl⟩ := hc
  exact hexDigit_safe _ (Nat.mod_lt _ (by norm_num))

/-- The shapes of what `yamlEscapeChar` writes. -/
theorem yamlEscapeChar_cases (d : Char) :
    (d = '"' ∧ yamlEscapeChar d = ['\\', '"']) ∨
    (∃ t : Char, t ≠ '\n' ∧ t ≠ '"' ∧ yamlEscapeChar d = ['\\', t]) ∨
    (∃ (t : Char) (w : Nat), t ≠ '\n' ∧ t ≠ '"' ∧
      yamlEscapeChar d = '\\' :: t :: hexStr w d.toNat) ∨
    (d ≠ '\n' ∧ d ≠ '"' ∧ yamlEscapeChar d = [d]) := by
  generalize hE : yamlEscapeChar d = l
  unfold yamlEscapeChar at hE
  by_cases h1 : d = '\\'
  · rw [if_pos h1] at hE; subst hE
    exact Or.inr (Or.inl ⟨'\\', by decide, by decide, rfl⟩)
  rw [if_neg h1] at hE
  by_cases h2 : d = '"'
  · rw [if_pos h2] at hE; subst hE
    exact Or.inl ⟨h2, rfl⟩
  rw [if_neg h2] at hE
  by_cases h3 : d.toNat = 0
  · rw [if_pos h3] at hE; subst hE
    exact Or.inr (Or.inl ⟨'0', by decide, by decide, rfl⟩)
  rw [if_neg h3] at hE
  by_cases h4 : d.toNat = 0x07
  · rw [if_pos h4] at hE; subst hE
    exact Or.inr (Or.inl ⟨'a', by decide, by decide, rfl⟩)
  rw [if_neg h4] at hE
  by_cases h5 : d.toNat = 0x08
  · rw [if_pos h5] at hE; subst hE
    exact Or.inr (Or.inl ⟨'b', by decide, by decide, rfl⟩)
  rw [if_neg h5] at hE
  by_cases h6 : d.toNat = 0x09
  · rw [if_pos h6] at hE; subst hE
    exact Or.inr (Or.inl ⟨'t', by decide, by decide, rfl⟩)
  rw [if_neg h6] at hE
  by_cases h7 : d.toNat = 0x0A
  · rw [if_pos h7] at hE; subst hE
    exact Or.inr (Or.inl ⟨'n', by decide, by decide, rfl⟩)
  rw [if_neg h7] at hE
  by_cases h8 : d.toNat = 0x0B
  · rw [if_pos h8] at hE; subst hE
    exact Or.inr (Or.inl ⟨'v', by decide, by decide, rfl⟩)
  rw [if_neg h8] at hE
  by_cases h9 : d.toNat = 0x0C
  · rw [if_pos h9] at hE; subst hE
    exact Or.inr (Or.inl ⟨'f', by decide, by decide, rfl⟩)
  rw [if_neg h9] at hE
  by_cases h10 : d.toNat = 0x0D
  · rw [if_pos h10] at hE; subst hE
    exact Or.inr (Or.inl ⟨'r', by decide, by decide, rfl⟩)
  rw [if_neg h10] at hE
  by_cases h11 : d.toNat = 0x1B
  · rw [if_pos h11] at hE; subst hE
    exact Or.inr (Or.inl ⟨'e', by decide, by decide, rfl⟩)
  rw [if_neg h11] at hE
  by_cases h12 : d.toNat < 0x20
  · rw [if_pos h12] at hE; subst hE
    exact Or.inr (Or.inr (Or.inl ⟨'x', 2, by decide, by decide, rfl⟩))
  rw [if_neg h12] at hE
  by_cases h13 : 0x80 ≤ d.toNat
  · rw [if_pos h13] at hE
    by_cases h14 : d.toNat = 0x85
    · rw [if_pos h14] at hE; subst hE
      exact Or.inr (Or.inl ⟨'N', by decide, by decide, rfl⟩)
    rw [if_neg h14] at hE
    by_cases h15 : d.toNat = 0xA0
    · rw [if_pos h15] at hE; subst hE
      exact Or.inr (Or.inl ⟨'_', by decide, by decide, rfl⟩)
    rw [if_neg h15] at hE
    by_cases h16 : d.toNat = 0x2028
    · rw [if_pos h16] at hE; subst hE
      exact Or.inr (Or.inl ⟨'L', by decide, by decide, rfl⟩)
    rw [if_neg h16] at hE
    by_cases h17 : d.toNat = 0x2029
    · rw [if_pos h17] at hE; subst hE
      exact Or.inr (Or.inl ⟨'P', by decide, by decide, rfl⟩)
    rw [if_neg h17] at hE
    by_cases h18 : d.toNat < 0x100
    · rw [if_pos h18] at hE; subst hE
      exact Or.inr (Or.inr (Or.inl ⟨'x', 2, by decide, by decide, rfl⟩))
    rw [if_neg h18] at hE
    by_cases h19 : d.toNat < 0x10000
    · rw [if_pos h19] at hE; subst hE
      exact Or.inr (Or.inr (Or.inl ⟨'u', 4, by decide, by decide, rfl⟩))
    rw [if_neg h19] at hE; subst hE
    exact Or.inr (Or.inr (Or.inl ⟨'U', 8, by decide, by decide, rfl⟩))
  rw [if_neg h13] at hE; subst hE
  refine Or.inr (Or.inr (Or.inr ⟨?_, h2, rfl⟩))
  rintro rfl
  exact h7 (by decide)

theorem newline_not_mem_yamlEscapeChar (d : Char) : '\n' ∉ yamlEscapeChar d := by
  rcases yamlEscapeChar_cases d with ⟨_, h⟩ | ⟨t, ht, _, h⟩ | ⟨t, w, ht, _, h⟩ | ⟨hd, _, h⟩
  · rw [h]; decide
  · rw [h]
    simp only [List.mem_cons, List.mem_singleton, List.not_mem_nil, or_false, not_or]
    exact ⟨by decide, fun hEq => ht hEq.symm⟩
  · rw [h]
    simp only [List.mem_cons, not_or]
    exact ⟨by decide, fun hEq => ht hEq.symm, fun hm => (hexStr_safe w d.toNat _ hm).1 rfl⟩
  · rw [h]
    simp only [List.mem_singleton]
    exact fun hEq => hd hEq.symm

/-- The escaped text contains no raw newline. -/
theorem newline_not_mem_yamlEscape (text : String) : '\n' ∉ (yamlEscape text).data := by
  simp only [yamlEscape, List.mem_flatMap, not_exists, not_and]
  exact fun d _ => newline_not_mem_yamlEscapeChar d

theorem yamlEscapeChar_quotes (d : Char) :
    QuotesEscaped (yamlEscapeChar d) ∧ (yamlEscapeChar d).head? ≠ some '"' := by
  have hbq : ('"' : Char) ≠ '\\' := by decide
  rcases yamlEscapeChar_cases d with ⟨_, h⟩ | ⟨t, _, ht, h⟩ | ⟨t, w, _, ht, h⟩ | ⟨_, hd, h⟩
  · rw [h]
    refine ⟨?_, by decide⟩
    intro pre post hEq
    cases pre with
    | nil =>
      simp only [List.nil_append, List.cons.injEq] at hEq
      exact absurd hEq.1.symm hbq
    | cons x pre =>
      cases pre with
      | nil =>
        simp only [List.cons_append, List.nil_append, List.cons.injEq] at hEq
        exact ⟨[], by rw [← hEq.1]; rfl⟩
      | cons y pre =>
        simp only [List.cons_append, List.cons.injEq] at hEq
        have := congrArg List.length hEq.2.2
        simp only [List.length_nil, List.length_append, List.length_cons] at this
        omega
  · rw [h]
    refine ⟨?_, by simp⟩
    intro pre post hEq
    have hm : '"' ∈ ['\\', t] := by rw [hEq]; simp
    simp only [List.mem_cons, List.mem_singleton, List.not_mem_nil, or_false] at hm
    rcases hm with hm | hm
    · exact absurd hm hbq
    · exact absurd hm.symm ht
  · rw [h]
    refine ⟨?_, by simp⟩
    intro pre post hEq
    have hm : '"' ∈ '\\' :: t :: hexStr w d.toNat := by rw [hEq]; simp
    simp only [List.mem_cons] at hm
    rcases hm with hm | hm | hm
    · exact absurd hm hbq
    · exact absurd hm.symm ht
    · exact absurd rfl (hexStr_safe w d.toNat _ hm).2
  · rw [h]
    refine ⟨?_, by simpa using fun hEq => hd hEq⟩
    intro pre post hEq
    have hm : '"' ∈ [d] := by rw [hEq]; simp
    simp only [List.mem_singleton] at hm
    exact absurd hm.symm hd

theorem QuotesEscaped.append {a b : List Char} (ha : QuotesEscaped a) (hb : QuotesEscaped b)
    (hhead : b.head? ≠ some '"') : QuotesEscaped (a ++ b) := by
  intro pre post hEq
  rcases List.append_eq_append_iff.mp hEq with ⟨a', hpre, hb'⟩ | ⟨c', ha', hc'⟩
  · obtain ⟨p', hp'⟩ := hb a' post hb'
    exact ⟨a ++ p', by rw [hpre, hp', List.append_assoc]⟩
  · cases c' with
    | nil =>
      simp only [List.nil_append] at hc'
      rw [← hc'] at hhead
      simp at hhead
    | cons x c'' =>
      simp only [List.cons_append, List.cons.injEq] at hc'
      rw [← hc'.1] at ha'
      exact ha pre c'' ha'

theorem flatMap_quotes : ∀ l : List Char,
    QuotesEscaped (l.flatMap yamlEscapeChar) ∧
      (l.flatMap yamlEscapeChar).head? ≠ some '"' := by
  intro l
  induction l with
  | nil =>
    refine ⟨?_, by simp⟩
    intro pre post hEq
    simp at hEq
  | cons d rest ih =>
    rw [List.flatMap_cons]
    obtain ⟨h1, h2⟩ := yamlEscapeChar_quotes d
    refine ⟨h1.append ih.1 ih.2, ?_⟩
    cases hd : yamlEscapeChar d with
    | nil => simpa using ih.2
    | cons x xs =>
      rw [hd] at h2
      simpa using h2

/-- C15, counterexample: of a rendering with two lines, `source_filename = ""` and
`define void @wrapper(i32 %0, i32 %1)`, the line break is written as backslash and n and each
double quote gets a backslash in front, but the comma is written as it is; the record is the
count, a comma, and the text with its raw comma. -/
theorem C15_counterexample :
    yamlEscape "source_filename = \"\"\ndefine void @wrapper(i32 %0, i32 %1)" =
      "source_filename = \\\"\\\"\\ndefine void @wrapper(i32 %0, i32 %1)" ∧
    ',' ∈ (yamlEscape "source_filename = \"\"\ndefine void @wrapper(i32 %0, i32 %1)").data ∧
    yamlEscapeChar ',' = [','] ∧
    dumpBasicBlockDAG (fun _ => "source_filename = \"\"\ndefine void @wrapper(i32 %0, i32 %1)")
      yamlEscape scenarioIR "" [0, 1] [3, 4, 5] =
      "3,source_filename = \\\"\\\"\\ndefine void @wrapper(i32 %0, i32 %1)" := by
  decide

/-- C15, as amended: for every rendered container text, the escaped text written into the
record contains no raw newline, every double quote of the rendering is written with a
backslash in front (so every double quote of the escaped text has a backslash right before it),
and a comma is written as it is; the record is the decimal count, a comma and the escaped text,
and the count consists of digits, so the record contains no newline and its first comma
separates the count from the text field. -/
theorem C15_record_is_one_field_line (render : SynModule n → String) (F : FunctionIR n)
    (LiveIns Instructions : List (Fin n)) :
    '\n' ∉ (yamlEscape (render (buildModule F LiveIns Instructions))).data ∧
    QuotesEscaped (yamlEscape (render (buildModule F LiveIns Instructions))).data ∧
    yamlEscapeChar '"' = ['\\', '"'] ∧ yamlEscapeChar '\n' = ['\\', 'n'] ∧
    yamlEscapeChar ',' = [','] ∧
    (dumpBasicBlockDAG render yamlEscape F "" LiveIns Instructions).data =
      (toString Instructions.length).data ++
        ',' :: (yamlEscape (render (buildModule F LiveIns Instructions))).data ∧
    ',' ∉ (toString Instructions.length).data ∧
    '\n' ∉ (dumpBasicBlockDAG render yamlEscape F "" LiveIns Instructions).data := by
  have hn := newline_not_mem_yamlEscape (render (buildModule F LiveIns Instructions))
  have hrec : (dumpBasicBlockDAG render yamlEscape F "" LiveIns Instructions).data =
      (toString Instructions.length).data ++
        ',' :: (yamlEscape (render (buildModule F LiveIns Instructions))).data := by
    simp only [dumpBasicBlockDAG, String.data_append]
    simp
  have hdig := repr_isDigit Instructions.length
  refine ⟨hn, (flatMap_quotes _).1, by decide, by decide, by decide, hrec, ?_, ?_⟩
  · intro hm
    have := hdig ',' hm
    revert this; decide
  · rw [hrec]
    intro hm
    rcases List.mem_append.mp hm with h | h
    · have := hdig '\n' h
      revert this; decide
    · rcases List.mem_cons.mp h with h | h
      · revert h; decide
      · exact hn h

end DagExtractor
